import Mathlib

/-!
# Verification of the 5×5 flipping board-game engine

Shallow embedding of `src/main.rs`: the `Board` structure (cell array and
incrementally maintained score), neighbor counting, flip propagation, move
generation, the positional `hash`, and the memoizing `minimax` search.

Conventions from the source:
* cells are `i8` values, modelled as `ℤ`: `0` empty, `1`/`2` player 1/2
  upright, `-1`/`-2` player 1/2 flipped;
* the 25 cells are stored row-major, index `idx = y*5 + x`;
* `i32` quantities (score, depth) are modelled as `ℤ` (all arithmetic stays
  far away from the `i32` bounds, so no wraparound is modelled);
* `u128` hash arithmetic keeps the `% 2^128` reduction of the source;
* the `f32` running average in `minimax` is modelled with exact rationals
  (`ℚ`); all claims settled against `minimax` are either independent of this
  component or evaluated at inputs where every `f32` operation is exact.
-/

namespace Thingy

set_option maxRecDepth 40000

def WIDTH : ℕ := 5
def HEIGHT : ℕ := 5
def NEIGHBORS : ℤ := 3

/-- `struct Board { cells: [i8; 25], score: i32 }`. -/
structure Board where
  cells : List ℤ
  score : ℤ
deriving DecidableEq, Repr

/-- `Board::new()`: all cells empty, score 0. -/
def Board.new : Board := ⟨List.replicate (WIDTH * HEIGHT) 0, 0⟩

/-- Array read `self.cells[i]` (all source reads are guarded in-bounds; the
out-of-range default 0 is never consulted on in-bounds data). -/
def Board.get (b : Board) (i : ℕ) : ℤ := b.cells.getD i 0

/-- Array write `self.cells[i] = v` (in-bounds at every source call site). -/
def Board.setCell (b : Board) (i : ℕ) (v : ℤ) : Board :=
  ⟨b.cells.set i v, b.score⟩

/-- `Board::neighbor_count`: number of orthogonal neighbors of `idx` whose
absolute value matches `cells[idx]`'s; `x`, `y` are the coordinates of `idx`
as passed by the callers. -/
def Board.neighborCount (b : Board) (idx x y : ℕ) : ℤ :=
  let piece := |b.get idx|
  (if 0 < x ∧ |b.get (idx - 1)| = piece then 1 else 0) +
  (if x < WIDTH - 1 ∧ |b.get (idx + 1)| = piece then 1 else 0) +
  (if 0 < y ∧ |b.get (idx - WIDTH)| = piece then 1 else 0) +
  (if y < HEIGHT - 1 ∧ |b.get (idx + WIDTH)| = piece then 1 else 0)

/-- The from-scratch recomputation loop inside `Board::score` (the part of
the function before the `assert!(score == self.score)` consistency check). -/
def Board.scoreCompute (b : Board) : ℤ :=
  (List.range b.cells.length).foldl
    (fun score idx =>
      let x := idx % WIDTH
      let y := idx / WIDTH
      let piece := b.get idx
      let sum := b.neighborCount idx x y
      if sum ≥ NEIGHBORS then
        score + (if piece = -1 then 1 else 0) - (if piece = -2 then 1 else 0)
      else score)
    0

/-- The condition of the `assert!` in `Board::score`: the incrementally
maintained `score` field agrees with the from-scratch recomputation. -/
def Board.scoreOk (b : Board) : Prop := b.scoreCompute = b.score

/-- `Board::update`: piece at `idx` reacts to a change at `mod_idx`; flips
`idx` when it reaches `NEIGHBORS` same-owner neighbors, and maintains the
incremental score. -/
def Board.update (b : Board) (modIdx idx x y : ℕ) (newPlace : Bool) : Board :=
  let piece := b.get idx
  if |b.get idx| ≠ |b.get modIdx| then b
  else
    let sum := b.neighborCount idx x y
    if sum ≥ NEIGHBORS then
      let b1 := if piece > 0 then b.setCell idx (-piece) else b
      if sum = NEIGHBORS ∨ newPlace then
        ⟨b1.cells, b1.score + (if |piece| = 1 then 1 else 0)
                            - (if |piece| = 2 then 1 else 0)⟩
      else b1
    else b

/-- `Board::propagate`: update the changed cell itself (`new_place = true`)
and each of its in-grid orthogonal neighbors. -/
def Board.propagate (b : Board) (idx : ℕ) : Board :=
  let x := idx % WIDTH
  let y := idx / WIDTH
  let b1 := b.update idx idx x y true
  let b2 := if 0 < x then b1.update idx (idx - 1) (x - 1) y false else b1
  let b3 := if x < WIDTH - 1 then b2.update idx (idx + 1) (x + 1) y false else b2
  let b4 := if 0 < y then b3.update idx (idx - WIDTH) x (y - 1) false else b3
  let b5 := if y < HEIGHT - 1 then b4.update idx (idx + WIDTH) x (y + 1) false else b4
  b5

/-- `Board::update_delete`: score bookkeeping for a neighbor of a piece
about to be moved away; only the score changes, never the cells. -/
def Board.updateDelete (b : Board) (modIdx idx x y : ℕ) : Board :=
  if |b.get idx| ≠ |b.get modIdx| then b
  else
    let owner := |b.get idx|
    let sum := b.neighborCount idx x y
    if sum = NEIGHBORS then
      ⟨b.cells, b.score - (if owner = 1 then 1 else 0)
                        + (if owner = 2 then 1 else 0)⟩
    else b

/-- `Board::propagate_delete`: run `update_delete` on the four in-grid
neighbors of `idx` (the source asserts `cells[idx] > 0` as a precondition;
every call site satisfies it). -/
def Board.propagateDelete (b : Board) (idx : ℕ) : Board :=
  let x := idx % WIDTH
  let y := idx / WIDTH
  let b1 := if 0 < x then b.updateDelete idx (idx - 1) (x - 1) y else b
  let b2 := if x < WIDTH - 1 then b1.updateDelete idx (idx + 1) (x + 1) y else b1
  let b3 := if 0 < y then b2.updateDelete idx (idx - WIDTH) x (y - 1) else b2
  let b4 := if y < HEIGHT - 1 then b3.updateDelete idx (idx + WIDTH) x (y + 1) else b3
  b4

/-- `b.cells.swap(i, j)`. -/
def Board.swapCells (b : Board) (i j : ℕ) : Board :=
  let vi := b.get i
  let vj := b.get j
  (b.setCell i vj).setCell j vi

/-- The successor board built for one placement move at empty cell `c`:
clone, set the cell to `player + 1`, propagate. -/
def Board.placeSucc (b : Board) (player : ℕ) (c : ℕ) : Board :=
  (b.setCell c ((player : ℤ) + 1)).propagate c

/-- The successor board built for one swap move of upright cells `i < j`:
score-delete both, swap, flip both in place, propagate both. -/
def Board.swapSucc (b : Board) (i j : ℕ) : Board :=
  let b1 := (b.propagateDelete i).propagateDelete j
  let b2 := b1.swapCells i j
  let b3 := b2.setCell i (-(b2.get i))
  let b4 := b3.setCell j (-(b3.get j))
  (b4.propagate i).propagate j

/-- The placement family of `Board::moves`: one successor per empty cell,
in cell order. -/
def Board.placeMoves (b : Board) (player : ℕ) : List Board :=
  (List.range b.cells.length).filterMap
    (fun c => if b.get c = 0 then some (b.placeSucc player c) else none)

/-- The swap family of `Board::moves`: one successor per pair `i < j` of
cells that both hold upright pieces (`cells > 0`), in lexicographic order. -/
def Board.swapMoves (b : Board) : List Board :=
  (List.range b.cells.length).flatMap
    (fun i =>
      if b.get i ≤ 0 then []
      else
        (List.range' (i + 1) (b.cells.length - (i + 1))).filterMap
          (fun j => if b.get j ≤ 0 then none else some (b.swapSucc i j)))

/-- `Board::moves`: the generated successor sequence, placements first,
then swaps. -/
def Board.moves (b : Board) (player : ℕ) : List Board :=
  b.placeMoves player ++ b.swapMoves

/-- `Board::hash`: fold each cell's value (offset by 2) into a distinct
3-bit field of a `u128`. -/
def Board.hash (b : Board) : ℕ :=
  b.cells.foldl (fun a e => ((a <<< 3) % 2 ^ 128) ||| ((e + 2) % 2 ^ 128).toNat) 0

/-- The value type memoized by the solver: `((i32, f32), Option<Board>)`,
the `f32` running-average component modelled as `ℚ`. -/
abbrev SearchVal := (ℤ × ℚ) × Option Board

/-- The solver's `cache: HashMap<u128, ((i32, f32), Option<Board>)>`,
modelled as a lookup function on key values. -/
abbrev Cache := ℕ → Option SearchVal

/-- `HashMap::insert`. -/
def cacheInsert (c : Cache) (k : ℕ) (v : SearchVal) : Cache :=
  fun k' => if k' = k then some v else c k'

/-- Rust's derived lexicographic `>` on an `(i32, f32)` pair (no NaN is ever
compared: see `Solver.minimax`). -/
def pairGt (s t : ℤ × ℚ) : Bool := s.1 > t.1 || (s.1 = t.1 && s.2 > t.2)

/-- The body of the `for` loop in `Solver::minimax`, threading the loop
state `(child_avg, best_so_far, best_board, l)` and the mutable cache; the
recursive call is supplied as `rec`. -/
def minimaxStep (player : ℕ) (rec : Cache → Board → ℕ → SearchVal × Cache)
    (acc : (ℚ × (ℤ × ℚ) × Option Board × ℤ) × Cache) (i : Board) :
    (ℚ × (ℤ × ℚ) × Option Board × ℤ) × Cache :=
  let childAvg := acc.1.1
  let bestSoFar := acc.1.2.1
  let bestBoard := acc.1.2.2.1
  let l := acc.1.2.2.2
  let res := rec acc.2 i (player ^^^ 1)
  let s := res.1.1
  let childAvg' := childAvg + s.2
  let better := if player = 0 then pairGt s bestSoFar else pairGt bestSoFar s
  if bestBoard = none ∨ better then
    ((childAvg', s, some i, l + 1), res.2)
  else
    ((childAvg', bestSoFar, bestBoard, l + 1), res.2)

/-- `Solver::minimax`, fuel-indexed: the fuel only bounds the recursion
depth and is always sufficient at the call wrapper (`Solver.minimax`), since
each recursive call increases `depth` and recursion stops at `depth ≥ 5`:
the wrapper passes fuel `(5 - depth).toNat`, which is 0 only when
`5 ≤ depth`, where the function returns at the leaf test anyway — so the
fuel-0 equation below coincides with the source's behavior everywhere it is
reached. -/
def minimaxAux : ℕ → Cache → Board → ℕ → ℤ → SearchVal × Cache
  | 0, cache, b, _player, _depth =>
    (match cache b.hash with
     | some r => (r, cache)
     | none => (((b.score, (b.score : ℚ)), none), cache))
  | fuel + 1, cache, b, player, depth =>
    (match cache b.hash with
     | some r => (r, cache)
     | none =>
       if 5 ≤ depth then (((b.score, (b.score : ℚ)), none), cache)
       else
         let start : (ℚ × (ℤ × ℚ) × Option Board × ℤ) × Cache :=
           ((0, (0, 0), none, 0), cache)
         let loop := (b.moves player).foldl
           (minimaxStep player (fun c b' p => minimaxAux fuel c b' p (depth + 1)))
           start
         let childAvg := loop.1.1 / (loop.1.2.2.2 : ℚ)
         let bestSoFar :=
           if loop.1.2.2.1 = none then ((b.score : ℤ), (b.score : ℚ))
           else (loop.1.2.1.1, childAvg)
         let bestBoard := loop.1.2.2.1
         ((bestSoFar, bestBoard), cacheInsert loop.2 b.hash (bestSoFar, bestBoard)))

/-- `Solver::minimax(b, player, depth)` acting on an explicit cache state:
returns the `((i32, f32), Option<Board>)` result and the updated cache. -/
def Solver.minimax (cache : Cache) (b : Board) (player : ℕ) (depth : ℤ) :
    SearchVal × Cache :=
  minimaxAux (5 - depth).toNat cache b player depth

/-- Boards reachable from the empty board by sequences of generated moves. -/
inductive Reachable : Board → Prop
  | base : Reachable Board.new
  | step {b b' : Board} (p : ℕ) : Reachable b → b' ∈ b.moves p → Reachable b'

/-! ## Spec-modelled definitions (for refinement comparisons only)

These definitions follow the spec's words, not the source; each theorem that
uses one compares it against the source-derived definitions above. -/

/-- Modelled from the spec (§3/§4.1): orthogonal grid adjacency of two cell
indices on the 5×5 board, via their row-major coordinates. -/
def specAdj (i j : ℕ) : Prop :=
  i < 25 ∧ j < 25 ∧
    ((i % 5 = j % 5 ∧ (i / 5 = j / 5 + 1 ∨ j / 5 = i / 5 + 1)) ∨
     (i / 5 = j / 5 ∧ (i % 5 = j % 5 + 1 ∨ j % 5 = i % 5 + 1)))

instance (i j : ℕ) : Decidable (specAdj i j) := by unfold specAdj; infer_instance

/-- Modelled from the spec (§4.1): the number of occupied orthogonal
neighbors of cell `k` owned by the same player as the piece on `k`. -/
def specSameOwnerNeighbors (b : Board) (k : ℕ) : ℕ :=
  ((List.range 25).filter
    (fun j => decide (specAdj k j ∧ b.get j ≠ 0 ∧ |b.get j| = |b.get k|))).length

/-- Modelled from the spec (§4.1 Scoring): `score_one_player(owner) = 1000 ×
|{cells with ≥3 same-owner neighbors among owner's occupied cells}| +
|{cells with ≥2}|`; player `p`'s occupied cells hold values of absolute
value `p + 1`. -/
def specScoreOnePlayer (b : Board) (p : ℕ) : ℤ :=
  1000 * ((List.range 25).filter
      (fun k => decide (|b.get k| = (p : ℤ) + 1 ∧ 3 ≤ specSameOwnerNeighbors b k))).length
    + ((List.range 25).filter
      (fun k => decide (|b.get k| = (p : ℤ) + 1 ∧ 2 ≤ specSameOwnerNeighbors b k))).length

/-- Modelled from the spec (§4.1): position score = score(player 0) −
score(player 1). -/
def specEval (b : Board) : ℤ := specScoreOnePlayer b 0 - specScoreOnePlayer b 1

/-- Modelled from the spec (§4.4, claim C8's reading of `Board::hash`): the
XOR of per-(cell, cell-state) keys over exactly the occupied cells, for an
arbitrary key table `key`. -/
def xorKeysOverOccupied (key : ℕ → ℤ → ℕ) (b : Board) : ℕ :=
  (List.range b.cells.length).foldl
    (fun a i => if b.get i ≠ 0 then a ^^^ key i (b.get i) else a) 0

/-! ## Concrete boards and caches used as test inputs -/

/-- A 2×2 block of player 1's upright pieces (consistent `score` field). -/
def Bblock : Board :=
  ⟨[1, 1, 0, 0, 0, 1, 1, 0, 0, 0, 0, 0, 0, 0, 0, 0, 0, 0, 0, 0, 0, 0, 0, 0, 0], 0⟩

/-- A plus-shape with flipped center: player 1 holds three upright pieces
around a flipped one with three same-owner neighbors, so the (consistent)
score is 1. -/
def Bplus : Board :=
  ⟨[0, 0, 0, 0, 0, 0, 0, 1, 0, 0, 0, 1, -1, 1, 0, 0, 0, 0, 0, 0, 0, 0, 0, 0, 0], 1⟩

/-- A board holding a single flipped piece of player 1. -/
def Bneg : Board :=
  ⟨[-1, 0, 0, 0, 0, 0, 0, 0, 0, 0, 0, 0, 0, 0, 0, 0, 0, 0, 0, 0, 0, 0, 0, 0, 0], 0⟩

/-- A cache pre-seeded with an entry for the empty board's hash key. -/
def seededCache : Cache :=
  fun k => if k = Board.new.hash then some ((7, 0), none) else none


/-- Score weight of a piece of absolute value `m`: player 1's pieces add,
player 2's subtract, anything else is inert. -/
def wt (m : ℤ) : ℤ := (if m = 1 then 1 else 0) - (if m = 2 then 1 else 0)

/-- `k` is one of the four in-grid orthogonal neighbor positions of `c`
visited by `propagate`/`propagate_delete` (guards exactly as in the source). -/
def adj (c k : ℕ) : Prop :=
  (0 < c % 5 ∧ k = c - 1) ∨ (c % 5 < 4 ∧ k = c + 1) ∨
    (0 < c / 5 ∧ k = c - 5) ∨ (c / 5 < 4 ∧ k = c + 5)

instance (c k : ℕ) : Decidable (adj c k) := by unfold adj; infer_instance

/-- `neighbor_count` of a cell at its own coordinates, as every call site
passes them. -/
def Board.cnt (b : Board) (k : ℕ) : ℤ := b.neighborCount k (k % 5) (k / 5)

/-- The condition under which `propagate c` flips cell `k`. -/
def flipCond (b : Board) (c k : ℕ) : Prop :=
  |b.get k| = |b.get c| ∧ NEIGHBORS ≤ b.cnt k ∧ 0 < b.get k

instance (b : Board) (c k : ℕ) : Decidable (flipCond b c k) := by
  unfold flipCond; infer_instance

/-- The score contribution of one `update` call inside `propagate c`. -/
def pdelta (b : Board) (c k : ℕ) (np : Bool) : ℤ :=
  if |b.get k| = |b.get c| ∧ NEIGHBORS ≤ b.cnt k ∧ (b.cnt k = NEIGHBORS ∨ np = true)
  then wt |b.get k| else 0

/-- The score contribution of one `update_delete` call inside
`propagate_delete c`. -/
def ddelta (b : Board) (c k : ℕ) : ℤ :=
  if |b.get k| = |b.get c| ∧ b.cnt k = NEIGHBORS then -wt |b.get k| else 0

/-- The per-cell contribution of the from-scratch score loop: a flipped
piece counts (positively for player 1, negatively for player 2) exactly when
it has at least `NEIGHBORS` same-owner orthogonal neighbors. -/
def contrib (b : Board) (k : ℕ) : ℤ :=
  if NEIGHBORS ≤ b.cnt k then
    (if b.get k = -1 then 1 else 0) - (if b.get k = -2 then 1 else 0)
  else 0


/-! ## Basic lemmas about cell access -/

theorem Board.get_setCell (b : Board) (i k : ℕ) (v : ℤ) :
    (b.setCell i v).get k = if i = k ∧ i < b.cells.length then v else b.get k := by
  simp only [Board.get, Board.setCell, List.getD_eq_getElem?_getD, List.getElem?_set]
  by_cases h1 : i = k
  · subst h1
    by_cases h2 : i < b.cells.length
    · simp [h2]
    · have h3 : b.cells[i]? = none := List.getElem?_eq_none (by omega)
      simp [h2, h3]
  · simp [h1]

theorem Board.length_setCell (b : Board) (i : ℕ) (v : ℤ) :
    (b.setCell i v).cells.length = b.cells.length := by
  simp [Board.setCell]

theorem Board.score_setCell (b : Board) (i : ℕ) (v : ℤ) :
    (b.setCell i v).score = b.score := rfl

/-- Reads only depend on the cells. -/
theorem Board.get_congr {b b' : Board} (h : b'.cells = b.cells) (k : ℕ) :
    b'.get k = b.get k := by simp [Board.get, h]

theorem Board.neighborCount_congr_cells {b b' : Board} (h : b'.cells = b.cells)
    (i x y : ℕ) : b'.neighborCount i x y = b.neighborCount i x y := by
  simp [Board.neighborCount, Board.get, h]

/-- Two `if (p ∧ a)` indicators agree when `a ↔ b` holds under `p`. -/
theorem ite_and_congr {p a b : Prop} [Decidable p] [Decidable a] [Decidable b]
    (h : p → (a ↔ b)) : (if p ∧ a then (1 : ℤ) else 0) = if p ∧ b then 1 else 0 := by
  by_cases hp : p
  · by_cases ha : a
    · rw [if_pos ⟨hp, ha⟩, if_pos ⟨hp, (h hp).mp ha⟩]
    · rw [if_neg (fun h' => ha h'.2), if_neg (fun h' => ha ((h hp).mpr h'.2))]
  · rw [if_neg (fun h' => hp h'.1), if_neg (fun h' => hp h'.1)]

/-- `neighbor_count` only reads absolute values, at the cell and its four
guarded neighbor positions. -/
theorem Board.neighborCount_congr_abs {b b' : Board} (i x y : ℕ)
    (h0 : |b'.get i| = |b.get i|)
    (h1 : 0 < x → |b'.get (i - 1)| = |b.get (i - 1)|)
    (h2 : x < 4 → |b'.get (i + 1)| = |b.get (i + 1)|)
    (h3 : 0 < y → |b'.get (i - 5)| = |b.get (i - 5)|)
    (h4 : y < 4 → |b'.get (i + 5)| = |b.get (i + 5)|) :
    b'.neighborCount i x y = b.neighborCount i x y := by
  simp only [Board.neighborCount, WIDTH, HEIGHT]
  rw [h0]
  exact congrArg₂ (· + ·) (congrArg₂ (· + ·) (congrArg₂ (· + ·)
    (ite_and_congr fun hp => by rw [h1 hp])
    (ite_and_congr fun hp => by rw [h2 (by omega : x < 4)]))
    (ite_and_congr fun hp => by rw [h3 hp]))
    (ite_and_congr fun hp => by rw [h4 (by omega : y < 4)])

/-! ## Characterization of `update`, `update_delete` and the propagations -/

theorem Board.get_eq_zero_of_le_length {b : Board} {k : ℕ}
    (h : b.cells.length ≤ k) : b.get k = 0 := by
  have : b.cells[k]? = none := List.getElem?_eq_none h
  simp [Board.get, this]

theorem Board.lt_length_of_get_ne_zero {b : Board} {k : ℕ} (h : b.get k ≠ 0) :
    k < b.cells.length := by
  by_contra h'
  exact h (b.get_eq_zero_of_le_length (by omega))

theorem Board.update_cells (b : Board) (m i x y : ℕ) (np : Bool) :
    (b.update m i x y np).cells =
      if |b.get i| = |b.get m| ∧ NEIGHBORS ≤ b.neighborCount i x y ∧ 0 < b.get i
      then b.cells.set i (-b.get i) else b.cells := by
  simp only [Board.update]
  by_cases hg : |b.get i| = |b.get m| <;> by_cases hs : NEIGHBORS ≤ b.neighborCount i x y <;>
    by_cases hp : 0 < b.get i <;>
      simp [hg, hs, hp, apply_ite Board.cells, Board.setCell]

theorem Board.update_score (b : Board) (m i x y : ℕ) (np : Bool) :
    (b.update m i x y np).score =
      b.score +
        (if |b.get i| = |b.get m| ∧ NEIGHBORS ≤ b.neighborCount i x y ∧
              (b.neighborCount i x y = NEIGHBORS ∨ np = true)
         then wt |b.get i| else 0) := by
  simp only [Board.update, wt]
  by_cases hg : |b.get i| = |b.get m| <;> by_cases hs : NEIGHBORS ≤ b.neighborCount i x y <;>
    by_cases hc : b.neighborCount i x y = NEIGHBORS ∨ np = true <;>
      by_cases hp : 0 < b.get i <;>
        simp [hg, hs, hc, hp, apply_ite Board.score, Board.setCell] <;> ring

theorem Board.get_update (b : Board) (m i x y : ℕ) (np : Bool) (k : ℕ) :
    (b.update m i x y np).get k =
      if k = i ∧ |b.get i| = |b.get m| ∧ NEIGHBORS ≤ b.neighborCount i x y ∧ 0 < b.get i
      then -(b.get i) else b.get k := by
  have hc := b.update_cells m i x y np
  by_cases hC : |b.get i| = |b.get m| ∧ NEIGHBORS ≤ b.neighborCount i x y ∧ 0 < b.get i
  · rw [if_pos hC] at hc
    have hlen : i < b.cells.length :=
      b.lt_length_of_get_ne_zero (by have := hC.2.2; omega)
    have : (b.update m i x y np).get k = (b.setCell i (-b.get i)).get k := by
      simp [Board.get, hc, Board.setCell]
    rw [this, b.get_setCell]
    by_cases hk : k = i
    · subst hk; simp [hlen, hC]
    · rw [if_neg (fun h => hk h.1.symm), if_neg (fun h => hk h.1)]
  · rw [if_neg hC] at hc
    rw [if_neg (by tauto)]
    simp [Board.get, hc]

theorem Board.abs_get_update (b : Board) (m i x y : ℕ) (np : Bool) (k : ℕ) :
    |(b.update m i x y np).get k| = |b.get k| := by
  rw [b.get_update m i x y np k]
  split_ifs with h
  · obtain ⟨hk, _⟩ := h; subst hk; rw [abs_neg]
  · rfl

theorem Board.updateDelete_cells (b : Board) (m i x y : ℕ) :
    (b.updateDelete m i x y).cells = b.cells := by
  simp only [Board.updateDelete]
  split_ifs <;> rfl

theorem Board.updateDelete_score (b : Board) (m i x y : ℕ) :
    (b.updateDelete m i x y).score =
      b.score +
        (if |b.get i| = |b.get m| ∧ b.neighborCount i x y = NEIGHBORS
         then -wt |b.get i| else 0) := by
  simp only [Board.updateDelete, wt]
  by_cases hg : |b.get i| = |b.get m| <;> by_cases hs : b.neighborCount i x y = NEIGHBORS <;>
    simp [hg, hs] <;> ring

/-- Master characterization of `Board::propagate`: the cell values of the
result (each handled cell is flipped exactly when `flipCond` holds for it)
and the score of the result (one `pdelta` contribution per handled cell). -/
theorem Board.propagate_char (b : Board) (c : ℕ) :
    (∀ t, (b.propagate c).get t =
      if (t = c ∨ adj c t) ∧ flipCond b c t then -b.get t else b.get t) ∧
    (b.propagate c).score =
      b.score + pdelta b c c true +
        (if 0 < c % 5 then pdelta b c (c - 1) false else 0) +
        (if c % 5 < 4 then pdelta b c (c + 1) false else 0) +
        (if 0 < c / 5 then pdelta b c (c - 5) false else 0) +
        (if c / 5 < 4 then pdelta b c (c + 5) false else 0) := by
  have hstep : ∀ (Bi : Board) (idx x y : ℕ) (np : Bool), x = idx % 5 → y = idx / 5 →
      (∀ t, |Bi.get t| = |b.get t|) → Bi.get idx = b.get idx →
      ∀ t, (Bi.update c idx x y np).get t =
        if t = idx ∧ flipCond b c idx then -b.get idx else Bi.get t := by
    intro Bi idx x y np hx hy habs hval t
    have hcnt : Bi.neighborCount idx x y = b.cnt idx := by
      subst hx hy
      exact Board.neighborCount_congr_abs idx _ _ (habs idx) (fun _ => habs _)
        (fun _ => habs _) (fun _ => habs _) (fun _ => habs _)
    rw [Bi.get_update c idx x y np t, hcnt, hval, habs c]
    simp only [flipCond]
  have hscorestep : ∀ (Bi : Board) (idx x y : ℕ) (np : Bool), x = idx % 5 → y = idx / 5 →
      (∀ t, |Bi.get t| = |b.get t|) →
      (Bi.update c idx x y np).score = Bi.score + pdelta b c idx np := by
    intro Bi idx x y np hx hy habs
    have hcnt : Bi.neighborCount idx x y = b.cnt idx := by
      subst hx hy
      exact Board.neighborCount_congr_abs idx _ _ (habs idx) (fun _ => habs _)
        (fun _ => habs _) (fun _ => habs _) (fun _ => habs _)
    rw [Bi.update_score c idx x y np, hcnt, habs idx, habs c]
    simp only [pdelta]
  simp only [Board.propagate, WIDTH, HEIGHT]
  set B1 := b.update c c (c % 5) (c / 5) true with hB1
  set B2 := if 0 < c % 5 then B1.update c (c - 1) (c % 5 - 1) (c / 5) false else B1 with hB2
  set B3 := if c % 5 < 5 - 1 then B2.update c (c + 1) (c % 5 + 1) (c / 5) false else B2 with hB3
  set B4 := if 0 < c / 5 then B3.update c (c - 5) (c % 5) (c / 5 - 1) false else B3 with hB4
  set B5 := if c / 5 < 5 - 1 then B4.update c (c + 5) (c % 5) (c / 5 + 1) false else B4 with hB5
  have P1 : ∀ t, B1.get t = if t = c ∧ flipCond b c c then -b.get c else b.get t :=
    hstep b c (c % 5) (c / 5) true rfl rfl (fun _ => rfl) rfl
  have A1 : ∀ t, |B1.get t| = |b.get t| := by
    intro t; rw [P1 t]; split_ifs with h
    · rw [h.1, abs_neg]
    · rfl
  have S1 : B1.score = b.score + pdelta b c c true :=
    hscorestep b c (c % 5) (c / 5) true rfl rfl (fun _ => rfl)
  have P2 : ∀ t, B2.get t =
      if t = c - 1 ∧ (0 < c % 5) ∧ flipCond b c (c - 1) then -b.get (c - 1) else B1.get t := by
    intro t
    rw [hB2]
    by_cases g : 0 < c % 5
    · rw [if_pos g, hstep B1 (c - 1) (c % 5 - 1) (c / 5) false (by omega) (by omega) A1
        (by rw [P1 (c - 1)]; exact if_neg (fun h => absurd h.1 (by omega))) t]
      exact if_congr (by tauto) rfl rfl
    · rw [if_neg g]
      exact (if_neg (fun h => g h.2.1)).symm
  have A2 : ∀ t, |B2.get t| = |b.get t| := by
    intro t; rw [P2 t]; split_ifs with h
    · rw [h.1, abs_neg]
    · exact A1 t
  have S2 : B2.score = B1.score + (if 0 < c % 5 then pdelta b c (c - 1) false else 0) := by
    rw [hB2]
    by_cases g : 0 < c % 5
    · rw [if_pos g, if_pos g,
        hscorestep B1 (c - 1) (c % 5 - 1) (c / 5) false (by omega) (by omega) A1]
    · rw [if_neg g, if_neg g, add_zero]
  have P3 : ∀ t, B3.get t =
      if t = c + 1 ∧ (c % 5 < 4) ∧ flipCond b c (c + 1) then -b.get (c + 1) else B2.get t := by
    intro t
    rw [hB3]
    by_cases g : c % 5 < 5 - 1
    · rw [if_pos g, hstep B2 (c + 1) (c % 5 + 1) (c / 5) false (by omega) (by omega) A2
        (by rw [P2 (c + 1), if_neg (fun h => absurd h.1 (by omega)),
                P1 (c + 1), if_neg (fun h => absurd h.1 (by omega))]) t]
      exact if_congr ⟨fun h => ⟨h.1, by omega, h.2⟩, fun h => ⟨h.1, h.2.2⟩⟩ rfl rfl
    · rw [if_neg g]
      exact (if_neg (fun h => g (by omega))).symm
  have A3 : ∀ t, |B3.get t| = |b.get t| := by
    intro t; rw [P3 t]; split_ifs with h
    · rw [h.1, abs_neg]
    · exact A2 t
  have S3 : B3.score = B2.score + (if c % 5 < 4 then pdelta b c (c + 1) false else 0) := by
    rw [hB3]
    by_cases g : c % 5 < 5 - 1
    · rw [if_pos g, if_pos (show c % 5 < 4 by omega),
        hscorestep B2 (c + 1) (c % 5 + 1) (c / 5) false (by omega) (by omega) A2]
    · rw [if_neg g, if_neg (show ¬ c % 5 < 4 by omega), add_zero]
  have P4 : ∀ t, B4.get t =
      if t = c - 5 ∧ (0 < c / 5) ∧ flipCond b c (c - 5) then -b.get (c - 5) else B3.get t := by
    intro t
    rw [hB4]
    by_cases g : 0 < c / 5
    · rw [if_pos g, hstep B3 (c - 5) (c % 5) (c / 5 - 1) false (by omega) (by omega) A3
        (by rw [P3 (c - 5), if_neg (fun h => absurd h.1 (by omega)),
                P2 (c - 5), if_neg (fun h => by obtain ⟨h1, h2, h3⟩ := h; omega),
                P1 (c - 5), if_neg (fun h => absurd h.1 (by omega))]) t]
      exact if_congr (by tauto) rfl rfl
    · rw [if_neg g]
      exact (if_neg (fun h => g h.2.1)).symm
  have A4 : ∀ t, |B4.get t| = |b.get t| := by
    intro t; rw [P4 t]; split_ifs with h
    · rw [h.1, abs_neg]
    · exact A3 t
  have S4 : B4.score = B3.score + (if 0 < c / 5 then pdelta b c (c - 5) false else 0) := by
    rw [hB4]
    by_cases g : 0 < c / 5
    · rw [if_pos g, if_pos g,
        hscorestep B3 (c - 5) (c % 5) (c / 5 - 1) false (by omega) (by omega) A3]
    · rw [if_neg g, if_neg g, add_zero]
  have P5 : ∀ t, B5.get t =
      if t = c + 5 ∧ (c / 5 < 4) ∧ flipCond b c (c + 5) then -b.get (c + 5) else B4.get t := by
    intro t
    rw [hB5]
    by_cases g : c / 5 < 5 - 1
    · rw [if_pos g, hstep B4 (c + 5) (c % 5) (c / 5 + 1) false (by omega) (by omega) A4
        (by rw [P4 (c + 5), if_neg (fun h => absurd h.1 (by omega)),
                P3 (c + 5), if_neg (fun h => absurd h.1 (by omega)),
                P2 (c + 5), if_neg (fun h => absurd h.1 (by omega)),
                P1 (c + 5), if_neg (fun h => absurd h.1 (by omega))]) t]
      exact if_congr ⟨fun h => ⟨h.1, by omega, h.2⟩, fun h => ⟨h.1, h.2.2⟩⟩ rfl rfl
    · rw [if_neg g]
      exact (if_neg (fun h => g (by omega))).symm
  have S5 : B5.score = B4.score + (if c / 5 < 4 then pdelta b c (c + 5) false else 0) := by
    rw [hB5]
    by_cases g : c / 5 < 5 - 1
    · rw [if_pos g, if_pos (show c / 5 < 4 by omega),
        hscorestep B4 (c + 5) (c % 5) (c / 5 + 1) false (by omega) (by omega) A4]
    · rw [if_neg g, if_neg (show ¬ c / 5 < 4 by omega), add_zero]
  refine ⟨?_, ?_⟩
  · intro t
    rw [P5 t, P4 t, P3 t, P2 t, P1 t]
    by_cases hr : (t = c ∨ adj c t) ∧ flipCond b c t
    · rw [if_pos hr]
      obtain ⟨hadj, hfc⟩ := hr
      rcases hadj with rfl | hadj
      · rw [if_neg (fun h => absurd h.1 (by omega)),
          if_neg (fun h => by obtain ⟨h1, h2, h3⟩ := h; omega),
          if_neg (fun h => absurd h.1 (by omega)),
          if_neg (fun h => by obtain ⟨h1, h2, h3⟩ := h; omega),
          if_pos ⟨rfl, hfc⟩]
      · simp only [adj] at hadj
        rcases hadj with ⟨g, rfl⟩ | ⟨g, rfl⟩ | ⟨g, rfl⟩ | ⟨g, rfl⟩
        · rw [if_neg (fun h => absurd h.1 (by omega)),
            if_neg (fun h => by obtain ⟨h1, h2, h3⟩ := h; omega),
            if_neg (fun h => absurd h.1 (by omega)),
            if_pos ⟨rfl, g, hfc⟩]
        · rw [if_neg (fun h => absurd h.1 (by omega)),
            if_neg (fun h => by obtain ⟨h1, h2, h3⟩ := h; omega),
            if_pos ⟨rfl, g, hfc⟩]
        · rw [if_neg (fun h => absurd h.1 (by omega)), if_pos ⟨rfl, g, hfc⟩]
        · rw [if_pos ⟨rfl, g, hfc⟩]
    · rw [if_neg hr]
      rw [if_neg (fun h => hr ⟨Or.inr (by simp only [adj]; exact Or.inr (Or.inr (Or.inr ⟨h.2.1, h.1⟩))),
            by rw [h.1]; exact h.2.2⟩),
        if_neg (fun h => hr ⟨Or.inr (by simp only [adj]; exact Or.inr (Or.inr (Or.inl ⟨h.2.1, h.1⟩))),
            by rw [h.1]; exact h.2.2⟩),
        if_neg (fun h => hr ⟨Or.inr (by simp only [adj]; exact Or.inr (Or.inl ⟨h.2.1, h.1⟩)),
            by rw [h.1]; exact h.2.2⟩),
        if_neg (fun h => hr ⟨Or.inr (by simp only [adj]; exact Or.inl ⟨h.2.1, h.1⟩),
            by rw [h.1]; exact h.2.2⟩),
        if_neg (fun h => hr ⟨Or.inl h.1, by rw [h.1]; exact h.2⟩)]
  · rw [S5, S4, S3, S2, S1]

/-- Value part of `Board.propagate_char`. -/
theorem Board.get_propagate (b : Board) (c t : ℕ) :
    (b.propagate c).get t =
      if (t = c ∨ adj c t) ∧ flipCond b c t then -b.get t else b.get t :=
  (b.propagate_char c).1 t

/-- Score part of `Board.propagate_char`. -/
theorem Board.score_propagate (b : Board) (c : ℕ) :
    (b.propagate c).score =
      b.score + pdelta b c c true +
        (if 0 < c % 5 then pdelta b c (c - 1) false else 0) +
        (if c % 5 < 4 then pdelta b c (c + 1) false else 0) +
        (if 0 < c / 5 then pdelta b c (c - 5) false else 0) +
        (if c / 5 < 4 then pdelta b c (c + 5) false else 0) :=
  (b.propagate_char c).2

theorem Board.abs_get_propagate (b : Board) (c t : ℕ) :
    |(b.propagate c).get t| = |b.get t| := by
  rw [b.get_propagate c t]
  split_ifs with h
  · rw [abs_neg]
  · rfl

theorem Board.get_propagate_of_nonpos {b : Board} {t : ℕ} (c : ℕ) (h : b.get t ≤ 0) :
    (b.propagate c).get t = b.get t := by
  rw [b.get_propagate c t, if_neg (fun hc => absurd hc.2.2.2 (by omega))]

theorem Board.length_update (b : Board) (m i x y : ℕ) (np : Bool) :
    (b.update m i x y np).cells.length = b.cells.length := by
  rw [b.update_cells m i x y np]
  split_ifs <;> simp

theorem Board.length_propagate (b : Board) (c : ℕ) :
    (b.propagate c).cells.length = b.cells.length := by
  simp only [Board.propagate]
  split_ifs <;> simp only [Board.length_update]

theorem Board.cells_propagateDelete (b : Board) (c : ℕ) :
    (b.propagateDelete c).cells = b.cells := by
  simp only [Board.propagateDelete]
  split_ifs <;> simp only [Board.updateDelete_cells]

theorem Board.get_propagateDelete (b : Board) (c t : ℕ) :
    (b.propagateDelete c).get t = b.get t :=
  Board.get_congr (b.cells_propagateDelete c) t

/-- Score characterization of `propagate_delete`: one `ddelta` per in-grid
neighbor of `c`. -/
theorem Board.score_propagateDelete (b : Board) (c : ℕ) :
    (b.propagateDelete c).score =
      b.score +
        (if 0 < c % 5 then ddelta b c (c - 1) else 0) +
        (if c % 5 < 4 then ddelta b c (c + 1) else 0) +
        (if 0 < c / 5 then ddelta b c (c - 5) else 0) +
        (if c / 5 < 4 then ddelta b c (c + 5) else 0) := by
  have hstep : ∀ (Bi : Board) (idx x y : ℕ), Bi.cells = b.cells → x = idx % 5 → y = idx / 5 →
      (Bi.updateDelete c idx x y).score = Bi.score + ddelta b c idx := by
    intro Bi idx x y hcells hx hy
    have hg : ∀ t, Bi.get t = b.get t := Board.get_congr hcells
    have hcnt : Bi.neighborCount idx x y = b.cnt idx := by
      subst hx hy
      exact (Board.neighborCount_congr_cells hcells idx _ _)
    rw [Bi.updateDelete_score c idx x y, hcnt, hg idx, hg c]
    simp only [ddelta]
  simp only [Board.propagateDelete, WIDTH, HEIGHT]
  set B1 := if 0 < c % 5 then b.updateDelete c (c - 1) (c % 5 - 1) (c / 5) else b with hB1
  set B2 := if c % 5 < 5 - 1 then B1.updateDelete c (c + 1) (c % 5 + 1) (c / 5) else B1 with hB2
  set B3 := if 0 < c / 5 then B2.updateDelete c (c - 5) (c % 5) (c / 5 - 1) else B2 with hB3
  set B4 := if c / 5 < 5 - 1 then B3.updateDelete c (c + 5) (c % 5) (c / 5 + 1) else B3 with hB4
  have C1 : B1.cells = b.cells := by
    rw [hB1]; split_ifs <;> simp only [Board.updateDelete_cells]
  have C2 : B2.cells = b.cells := by
    rw [hB2]; split_ifs <;> simp only [Board.updateDelete_cells, C1]
  have C3 : B3.cells = b.cells := by
    rw [hB3]; split_ifs <;> simp only [Board.updateDelete_cells, C2]
  have S1 : B1.score = b.score + (if 0 < c % 5 then ddelta b c (c - 1) else 0) := by
    rw [hB1]; by_cases g : 0 < c % 5
    · rw [if_pos g, if_pos g, hstep b (c - 1) _ _ rfl (by omega) (by omega)]
    · rw [if_neg g, if_neg g, add_zero]
  have S2 : B2.score = B1.score + (if c % 5 < 4 then ddelta b c (c + 1) else 0) := by
    rw [hB2]; by_cases g : c % 5 < 5 - 1
    · rw [if_pos g, if_pos (show c % 5 < 4 by omega), hstep B1 (c + 1) _ _ C1 (by omega) (by omega)]
    · rw [if_neg g, if_neg (show ¬ c % 5 < 4 by omega), add_zero]
  have S3 : B3.score = B2.score + (if 0 < c / 5 then ddelta b c (c - 5) else 0) := by
    rw [hB3]; by_cases g : 0 < c / 5
    · rw [if_pos g, if_pos g, hstep B2 (c - 5) _ _ C2 (by omega) (by omega)]
    · rw [if_neg g, if_neg g, add_zero]
  have S4 : B4.score = B3.score + (if c / 5 < 4 then ddelta b c (c + 5) else 0) := by
    rw [hB4]; by_cases g : c / 5 < 5 - 1
    · rw [if_pos g, if_pos (show c / 5 < 4 by omega), hstep B3 (c + 5) _ _ C3 (by omega) (by omega)]
    · rw [if_neg g, if_neg (show ¬ c / 5 < 4 by omega), add_zero]
  rw [S4, S3, S2, S1]

/-! ## Decomposition of the generated move list -/

theorem Board.mem_placeMoves {b b' : Board} {p : ℕ} :
    b' ∈ b.placeMoves p ↔ ∃ c, c < b.cells.length ∧ b.get c = 0 ∧ b' = b.placeSucc p c := by
  unfold Board.placeMoves
  rw [List.mem_filterMap]
  constructor
  · rintro ⟨c, hc, heq⟩
    rw [List.mem_range] at hc
    by_cases h0 : b.get c = 0
    · rw [if_pos h0, Option.some_inj] at heq
      exact ⟨c, hc, h0, heq.symm⟩
    · rw [if_neg h0] at heq
      exact absurd heq (by simp)
  · rintro ⟨c, hc, h0, rfl⟩
    exact ⟨c, List.mem_range.mpr hc, by rw [if_pos h0]⟩

theorem Board.mem_swapMoves {b b' : Board} :
    b' ∈ b.swapMoves ↔
      ∃ i j, i < j ∧ j < b.cells.length ∧ 0 < b.get i ∧ 0 < b.get j ∧
        b' = b.swapSucc i j := by
  unfold Board.swapMoves
  rw [List.mem_flatMap]
  constructor
  · rintro ⟨i, hi, hmem⟩
    rw [List.mem_range] at hi
    by_cases h0 : b.get i ≤ 0
    · rw [if_pos h0] at hmem
      exact absurd hmem (by simp)
    · rw [if_neg h0] at hmem
      rw [List.mem_filterMap] at hmem
      obtain ⟨j, hj, heq⟩ := hmem
      rw [List.mem_range'] at hj
      obtain ⟨d, hd, rfl⟩ := hj
      by_cases h1 : b.get (i + 1 + 1 * d) ≤ 0
      · rw [if_pos h1] at heq
        exact absurd heq (by simp)
      · rw [if_neg h1, Option.some_inj] at heq
        exact ⟨i, i + 1 + 1 * d, by omega, by omega, by omega, by omega, heq.symm⟩
  · rintro ⟨i, j, hij, hj, hi0, hj0, rfl⟩
    refine ⟨i, List.mem_range.mpr (by omega), ?_⟩
    rw [if_neg (by omega)]
    rw [List.mem_filterMap]
    refine ⟨j, ?_, by rw [if_neg (by omega)]⟩
    rw [List.mem_range']
    exact ⟨j - (i + 1), by omega, by omega⟩

theorem Board.mem_moves {b b' : Board} {p : ℕ} :
    b' ∈ b.moves p ↔
      (∃ c, c < b.cells.length ∧ b.get c = 0 ∧ b' = b.placeSucc p c) ∨
      (∃ i j, i < j ∧ j < b.cells.length ∧ 0 < b.get i ∧ 0 < b.get j ∧
        b' = b.swapSucc i j) := by
  unfold Board.moves
  rw [List.mem_append, Board.mem_placeMoves, Board.mem_swapMoves]

/-- Cells other than the two swapped ones that hold no upright piece are
untouched by a swap move. -/
theorem Board.get_swapSucc_untouched (b : Board) (i j k : ℕ) (hki : k ≠ i)
    (hkj : k ≠ j) (hneg : b.get k ≤ 0) : (b.swapSucc i j).get k = b.get k := by
  simp only [Board.swapSucc, Board.swapCells]
  set b1 := (b.propagateDelete i).propagateDelete j with hb1
  have e1 : ∀ t, b1.get t = b.get t := fun t =>
    (Board.get_propagateDelete _ j t).trans (Board.get_propagateDelete b i t)
  set b2 := (b1.setCell i (b1.get j)).setCell j (b1.get i) with hb2
  have e2 : b2.get k = b1.get k := by
    rw [hb2, Board.get_setCell, if_neg (fun h => hkj h.1.symm),
      Board.get_setCell, if_neg (fun h => hki h.1.symm)]
  set b3 := b2.setCell i (-b2.get i) with hb3
  have e3 : b3.get k = b2.get k := by
    rw [hb3, Board.get_setCell]; exact if_neg (fun h => hki h.1.symm)
  set b4 := b3.setCell j (-b3.get j) with hb4
  have e4 : b4.get k = b3.get k := by
    rw [hb4, Board.get_setCell]; exact if_neg (fun h => hkj h.1.symm)
  have hk4 : b4.get k = b.get k := by rw [e4, e3, e2, e1]
  have h5 : (b4.propagate i).get k = b.get k := by
    rw [Board.get_propagate_of_nonpos i (by rw [hk4]; exact hneg), hk4]
  rw [Board.get_propagate_of_nonpos j (by rw [h5]; exact hneg), h5]

/-! ## The hash as positional base-8 packing -/

theorem testBit_mul_pow_add_lo {a c k i : ℕ} (hik : i < k) :
    (a * 2 ^ k + c).testBit i = c.testBit i := by
  rw [Nat.testBit_to_div_mod, Nat.testBit_to_div_mod, decide_eq_decide]
  have hik' : i + (k - i) = k := by omega
  have h1 : a * 2 ^ k + c = 2 ^ i * (a * 2 ^ (k - i)) + c := by
    calc a * 2 ^ k + c = a * 2 ^ (i + (k - i)) + c := by rw [hik']
      _ = 2 ^ i * (a * 2 ^ (k - i)) + c := by rw [pow_add]; ring
  rw [h1, Nat.mul_add_div (Nat.two_pow_pos i)]
  have h2 : a * 2 ^ (k - i) % 2 = 0 := by
    have h4 : (2 : ℕ) ∣ a * 2 ^ (k - i) :=
      Dvd.dvd.mul_left (dvd_pow_self 2 (by omega : k - i ≠ 0)) a
    omega
  omega

theorem testBit_mul_pow_add_hi {a c k i : ℕ} (hik : k ≤ i) (hc : c < 2 ^ k) :
    (a * 2 ^ k + c).testBit i = a.testBit (i - k) := by
  rw [Nat.testBit_to_div_mod, Nat.testBit_to_div_mod, decide_eq_decide]
  have h1 : (a * 2 ^ k + c) / 2 ^ i = a / 2 ^ (i - k) := by
    have e : (2 : ℕ) ^ i = 2 ^ k * 2 ^ (i - k) := by
      rw [← pow_add]
      congr 1
      omega
    rw [e, ← Nat.div_div_eq_div_mul]
    congr 1
    rw [mul_comm a, Nat.mul_add_div (Nat.two_pow_pos k), Nat.div_eq_of_lt hc, add_zero]
  rw [h1]

theorem lor_mul_pow_eq_add {a c k : ℕ} (hc : c < 2 ^ k) :
    (a * 2 ^ k) ||| c = a * 2 ^ k + c := by
  apply Nat.eq_of_testBit_eq
  intro i
  rw [Nat.testBit_lor]
  by_cases hik : i < k
  · rw [testBit_mul_pow_add_lo hik]
    have hz : (a * 2 ^ k).testBit i = false := by
      have : a * 2 ^ k = a * 2 ^ k + 0 := by omega
      rw [this, testBit_mul_pow_add_lo hik]
      simp
    rw [hz, Bool.false_or]
  · rw [testBit_mul_pow_add_hi (by omega) hc]
    have hz : c.testBit i = false :=
      Nat.testBit_lt_two_pow (lt_of_lt_of_le hc (Nat.pow_le_pow_right (by omega) (by omega)))
    have hz2 : (a * 2 ^ k).testBit i = a.testBit (i - k) := by
      have : a * 2 ^ k = a * 2 ^ k + 0 := by omega
      rw [this, testBit_mul_pow_add_hi (by omega) (Nat.two_pow_pos k)]
    rw [hz, hz2, Bool.or_false]

theorem packFold_shift (l : List ℤ) : ∀ a : ℕ,
    l.foldl (fun a e => a * 8 + (e + 2).toNat) a
      = a * 8 ^ l.length + l.foldl (fun a e => a * 8 + (e + 2).toNat) 0 := by
  induction l with
  | nil => intro a; simp
  | cons x xs ih =>
    intro a
    simp only [List.foldl_cons, List.length_cons]
    rw [ih (a * 8 + (x + 2).toNat), ih (0 * 8 + (x + 2).toNat)]
    ring

theorem packFold_lt (l : List ℤ) (hv : ∀ v ∈ l, -2 ≤ v ∧ v ≤ 2) :
    l.foldl (fun a e => a * 8 + (e + 2).toNat) 0 < 8 ^ l.length := by
  induction l with
  | nil => simp
  | cons x xs ih =>
    simp only [List.foldl_cons, List.length_cons]
    rw [packFold_shift]
    have hc : (x + 2).toNat < 8 := by
      have := hv x (List.mem_cons_self x xs)
      omega
    have hr := ih (fun v hv' => hv v (List.mem_cons_of_mem x hv'))
    have hp : (8 : ℕ) ^ (xs.length + 1) = 8 ^ xs.length * 8 := pow_succ 8 xs.length
    have hm : (0 * 8 + (x + 2).toNat) * 8 ^ xs.length ≤ 7 * 8 ^ xs.length :=
      Nat.mul_le_mul_right _ (by omega)
    omega

theorem hashFold_eq_packFold (l : List ℤ) : ∀ (a m : ℕ),
    (∀ v ∈ l, -2 ≤ v ∧ v ≤ 2) → a < 2 ^ m → m + 3 * l.length ≤ 128 →
    l.foldl (fun a e => ((a <<< 3) % 2 ^ 128) ||| ((e + 2) % 2 ^ 128).toNat) a
      = l.foldl (fun a e => a * 8 + (e + 2).toNat) a := by
  induction l with
  | nil => intros; rfl
  | cons x xs ih =>
    intro a m hv ha hm
    simp only [List.foldl_cons, List.length_cons] at hm ⊢
    have hx := hv x (List.mem_cons_self x xs)
    have hcode : ((x + 2) % 2 ^ 128).toNat = (x + 2).toNat := by
      rw [Int.emod_eq_of_lt (by omega) (by omega)]
    have hm8 : (2 : ℕ) ^ (m + 3) = 2 ^ m * 8 := by
      rw [pow_add]
      norm_num
    have hshift : (a <<< 3) % 2 ^ 128 = a * 8 := by
      rw [Nat.shiftLeft_eq]
      have h3 : a * 2 ^ 3 = a * 8 := by norm_num
      have h1 : a * 8 < 2 ^ (m + 3) := by omega
      have h2 : (2 : ℕ) ^ (m + 3) ≤ 2 ^ 128 := Nat.pow_le_pow_right (by omega) (by omega)
      rw [h3]
      exact Nat.mod_eq_of_lt (by omega)
    have hlor : (a * 8) ||| (x + 2).toNat = a * 8 + (x + 2).toNat := by
      have h8 : a * 8 = a * 2 ^ 3 := by norm_num
      rw [h8, lor_mul_pow_eq_add (by omega)]
    rw [hcode, hshift, hlor, ih (a * 8 + (x + 2).toNat) (m + 3)
      (fun v hv' => hv v (List.mem_cons_of_mem x hv')) (by omega) (by omega)]

theorem packFold_eq_sum (l : List ℤ) :
    l.foldl (fun a e => a * 8 + (e + 2).toNat) 0
      = ((List.range l.length).map
          (fun i => (l.getD i 0 + 2).toNat * 8 ^ (l.length - 1 - i))).sum := by
  induction l with
  | nil => simp
  | cons x xs ih =>
    simp only [List.foldl_cons, List.length_cons]
    rw [packFold_shift, List.range_succ_eq_map]
    simp only [List.map_cons, List.sum_cons, List.map_map]
    have h0 : (List.map ((fun i => ((x :: xs).getD i 0 + 2).toNat *
        8 ^ (xs.length + 1 - 1 - i)) ∘ Nat.succ) (List.range xs.length)).sum
        = (List.map (fun i => (xs.getD i 0 + 2).toNat * 8 ^ (xs.length - 1 - i))
            (List.range xs.length)).sum := by
      apply congrArg
      apply List.map_congr_left
      intro i _
      simp only [Function.comp_apply, List.getD_cons_succ]
      congr 2
      omega
    rw [h0, ← ih]
    simp only [List.getD_cons_zero]
    have h1 : xs.length + 1 - 1 - 0 = xs.length := by omega
    rw [h1]
    ring

theorem packFold_inj (l₁ : List ℤ) : ∀ l₂ : List ℤ, l₁.length = l₂.length →
    (∀ v ∈ l₁, -2 ≤ v ∧ v ≤ 2) → (∀ v ∈ l₂, -2 ≤ v ∧ v ≤ 2) →
    l₁.foldl (fun a e => a * 8 + (e + 2).toNat) 0
      = l₂.foldl (fun a e => a * 8 + (e + 2).toNat) 0 →
    l₁ = l₂ := by
  induction l₁ with
  | nil =>
    intro l₂ hlen _ _ _
    cases l₂ with
    | nil => rfl
    | cons y ys => simp at hlen
  | cons x xs ih =>
    intro l₂ hlen hv1 hv2 heq
    cases l₂ with
    | nil => simp at hlen
    | cons y ys =>
      simp only [List.foldl_cons, List.length_cons] at hlen heq
      rw [packFold_shift xs, packFold_shift ys] at heq
      have hlen' : xs.length = ys.length := by omega
      have hbx := packFold_lt xs (fun v hv' => hv1 v (List.mem_cons_of_mem x hv'))
      have hby := packFold_lt ys (fun v hv' => hv2 v (List.mem_cons_of_mem y hv'))
      have hcx : (x + 2).toNat < 8 := by
        have := hv1 x (List.mem_cons_self x xs)
        omega
      have hcy : (y + 2).toNat < 8 := by
        have := hv2 y (List.mem_cons_self y ys)
        omega
      rw [hlen'] at heq hbx
      simp only [Nat.zero_mul, Nat.zero_add] at heq
      have hkey : (x + 2).toNat = (y + 2).toNat ∧
          xs.foldl (fun a e => a * 8 + (e + 2).toNat) 0
            = ys.foldl (fun a e => a * 8 + (e + 2).toNat) 0 := by
        rcases Nat.lt_trichotomy ((x + 2).toNat) ((y + 2).toNat) with hlt | heqq | hgt
        · exfalso
          have h1 : ((x + 2).toNat + 1) * 8 ^ ys.length ≤ (y + 2).toNat * 8 ^ ys.length :=
            Nat.mul_le_mul_right _ (by omega)
          rw [Nat.succ_mul] at h1
          omega
        · constructor
          · exact heqq
          · rw [heqq] at heq
            omega
        · exfalso
          have h1 : ((y + 2).toNat + 1) * 8 ^ ys.length ≤ (x + 2).toNat * 8 ^ ys.length :=
            Nat.mul_le_mul_right _ (by omega)
          rw [Nat.succ_mul] at h1
          omega
      obtain ⟨hc, hF⟩ := hkey
      have hx2 := hv1 x (List.mem_cons_self x xs)
      have hy2 := hv2 y (List.mem_cons_self y ys)
      have hxy : x = y := by omega
      rw [hxy, ih ys hlen' (fun v hv' => hv1 v (List.mem_cons_of_mem x hv'))
        (fun v hv' => hv2 v (List.mem_cons_of_mem y hv')) hF]

/-- `Board.hash` rewritten as the plain base-8 packing fold. -/
theorem Board.hash_eq_packFold (b : Board) (hlen : b.cells.length ≤ 25)
    (hv : ∀ v ∈ b.cells, -2 ≤ v ∧ v ≤ 2) :
    b.hash = b.cells.foldl (fun a e => a * 8 + (e + 2).toNat) 0 := by
  unfold Board.hash
  exact hashFold_eq_packFold b.cells 0 0 hv (by norm_num) (by omega)

/-! ## The score recomputation as a sum of per-cell contributions -/

theorem foldl_add_eq_sum (g : ℕ → ℤ) : ∀ (n : ℕ) (a : ℤ),
    (List.range n).foldl (fun s k => s + g k) a = a + ∑ k in Finset.range n, g k := by
  intro n
  induction n with
  | zero => intro a; simp
  | succ n ih =>
    intro a
    rw [List.range_succ, List.foldl_append, ih, Finset.sum_range_succ]
    simp [add_assoc]

theorem Board.scoreCompute_eq_sum (b : Board) :
    b.scoreCompute = ∑ k in Finset.range b.cells.length, contrib b k := by
  unfold Board.scoreCompute
  rw [List.foldl_ext _ (fun (s : ℤ) (k : ℕ) => s + contrib b k) _
    (fun s k _ => by
      show (if b.neighborCount k (k % WIDTH) (k / WIDTH) ≥ NEIGHBORS then
        s + (if b.get k = -1 then 1 else 0) - (if b.get k = -2 then 1 else 0) else s)
          = s + contrib b k
      unfold contrib Board.cnt
      by_cases h : NEIGHBORS ≤ b.neighborCount k (k % WIDTH) (k / WIDTH)
      · rw [if_pos h, if_pos (show NEIGHBORS ≤ b.neighborCount k (k % 5) (k / 5) from h)]
        ring
      · rw [if_neg h, if_neg (show ¬ NEIGHBORS ≤ b.neighborCount k (k % 5) (k / 5) from h),
          add_zero]),
    foldl_add_eq_sum, zero_add]

theorem contrib_eq_indicators (b : Board) (k : ℕ) :
    contrib b k =
      (if b.get k = -1 ∧ NEIGHBORS ≤ b.cnt k then (1 : ℤ) else 0)
        - (if b.get k = -2 ∧ NEIGHBORS ≤ b.cnt k then (1 : ℤ) else 0) := by
  unfold contrib
  by_cases h : NEIGHBORS ≤ b.cnt k <;> simp [h]

set_option maxHeartbeats 1600000 in
theorem specNbr_eq_cnt (b : Board) (k : ℕ) (hk : k < 25) (hocc : b.get k ≠ 0) :
    (specSameOwnerNeighbors b k : ℤ) = b.cnt k := by
  have habs : |b.get k| ≠ 0 := fun h => hocc (abs_eq_zero.mp h)
  unfold specSameOwnerNeighbors Board.cnt Board.neighborCount
  rw [← List.countP_eq_length_filter]
  have hpred : ∀ j ∈ List.range 25,
      (decide (specAdj k j ∧ b.get j ≠ 0 ∧ |b.get j| = |b.get k|) = true ↔
        decide (specAdj k j ∧ |b.get j| = |b.get k|) = true) := by
    intro j _
    simp only [decide_eq_true_eq]
    constructor
    · rintro ⟨h1, _, h3⟩
      exact ⟨h1, h3⟩
    · rintro ⟨h1, h3⟩
      refine ⟨h1, fun hz => ?_, h3⟩
      rw [hz] at h3
      exact habs (by simpa using h3.symm)
  rw [List.countP_congr hpred]
  simp only [WIDTH, HEIGHT]
  interval_cases k <;>
    · simp only [List.range_succ, List.countP_append, List.countP_cons, List.countP_nil,
        Bool.decide_and, Bool.and_eq_true, decide_eq_true_eq, List.range_zero]
      norm_num [specAdj]
      all_goals split_ifs <;> push_cast <;> omega


/-! ## Count comparison helpers and the shape of a swap successor -/

theorem ite_and_mono {p a b : Prop} [Decidable p] [Decidable a] [Decidable b]
    (h : p → a → b) : (if p ∧ a then (1 : ℤ) else 0) ≤ if p ∧ b then 1 else 0 := by
  by_cases hp : p
  · by_cases ha : a
    · rw [if_pos ⟨hp, ha⟩, if_pos ⟨hp, h hp ha⟩]
    · rw [if_neg (fun h' => ha h'.2)]
      split_ifs <;> omega
  · rw [if_neg (fun h' => hp h'.1)]
    split_ifs <;> omega

theorem Board.cnt_congr_iff {b b' : Board} (k : ℕ)
    (h0 : |b'.get k| = |b.get k|)
    (h1 : 0 < k % 5 → (|b'.get (k - 1)| = |b.get k| ↔ |b.get (k - 1)| = |b.get k|))
    (h2 : k % 5 < 4 → (|b'.get (k + 1)| = |b.get k| ↔ |b.get (k + 1)| = |b.get k|))
    (h3 : 0 < k / 5 → (|b'.get (k - 5)| = |b.get k| ↔ |b.get (k - 5)| = |b.get k|))
    (h4 : k / 5 < 4 → (|b'.get (k + 5)| = |b.get k| ↔ |b.get (k + 5)| = |b.get k|)) :
    b'.cnt k = b.cnt k := by
  unfold Board.cnt Board.neighborCount
  simp only [WIDTH, HEIGHT]
  rw [h0]
  exact congrArg₂ (· + ·) (congrArg₂ (· + ·) (congrArg₂ (· + ·)
    (ite_and_congr h1) (ite_and_congr (fun hp => h2 (by omega))))
    (ite_and_congr h3)) (ite_and_congr (fun hp => h4 (by omega)))

theorem Board.cnt_mono {b b' : Board} (k : ℕ)
    (h0 : |b'.get k| = |b.get k|)
    (h1 : 0 < k % 5 → (|b'.get (k - 1)| = |b.get k| → |b.get (k - 1)| = |b.get k|))
    (h2 : k % 5 < 4 → (|b'.get (k + 1)| = |b.get k| → |b.get (k + 1)| = |b.get k|))
    (h3 : 0 < k / 5 → (|b'.get (k - 5)| = |b.get k| → |b.get (k - 5)| = |b.get k|))
    (h4 : k / 5 < 4 → (|b'.get (k + 5)| = |b.get k| → |b.get (k + 5)| = |b.get k|)) :
    b'.cnt k ≤ b.cnt k := by
  unfold Board.cnt Board.neighborCount
  simp only [WIDTH, HEIGHT]
  rw [h0]
  refine add_le_add (add_le_add (add_le_add ?_ ?_) ?_) ?_
  · exact ite_and_mono h1
  · exact ite_and_mono (fun hp => h2 (by omega))
  · exact ite_and_mono h3
  · exact ite_and_mono (fun hp => h4 (by omega))

/-- `propagate` never changes any neighbor count (it only flips signs). -/
theorem Board.cnt_propagate_eq (b : Board) (c k : ℕ) :
    (b.propagate c).cnt k = b.cnt k :=
  Board.neighborCount_congr_abs k (k % 5) (k / 5) (b.abs_get_propagate c k)
    (fun _ => b.abs_get_propagate c _) (fun _ => b.abs_get_propagate c _)
    (fun _ => b.abs_get_propagate c _) (fun _ => b.abs_get_propagate c _)

/-- Being a guarded neighbor position is symmetric for in-range indices. -/
theorem adj_comm {c k : ℕ} (hc : c < 25) (hk : k < 25) : adj c k ↔ adj k c := by
  simp only [adj]
  omega

/-- A swap move is two propagations of an intermediate board holding the
exchanged, flipped pieces; the intermediate board's cells and score are
explicit. -/
theorem Board.swapSucc_eq (b : Board) (i j : ℕ) (hij : i < j)
    (hj : j < b.cells.length) :
    ∃ bmid : Board, b.swapSucc i j = (bmid.propagate i).propagate j ∧
      bmid.cells.length = b.cells.length ∧
      (∀ t, bmid.get t =
        if t = i then -b.get j else if t = j then -b.get i else b.get t) ∧
      bmid.score = ((b.propagateDelete i).propagateDelete j).score := by
  simp only [Board.swapSucc, Board.swapCells]
  set b1 := (b.propagateDelete i).propagateDelete j with hb1
  have hc1 : b1.cells = b.cells := by
    rw [hb1, Board.cells_propagateDelete, Board.cells_propagateDelete]
  have e1 : ∀ t, b1.get t = b.get t := Board.get_congr hc1
  set b2 := (b1.setCell i (b1.get j)).setCell j (b1.get i) with hb2
  set b3 := b2.setCell i (-b2.get i) with hb3
  set b4 := b3.setCell j (-b3.get j) with hb4
  refine ⟨b4, rfl, ?_, ?_, ?_⟩
  · rw [hb4, hb3, hb2, Board.length_setCell, Board.length_setCell,
      Board.length_setCell, Board.length_setCell, hc1]
  · intro t
    have hlen1 : b1.cells.length = b.cells.length := by rw [hc1]
    have hlen2 : b2.cells.length = b.cells.length := by
      rw [hb2, Board.length_setCell, Board.length_setCell, hlen1]
    have hlen3 : b3.cells.length = b.cells.length := by
      rw [hb3, Board.length_setCell, hlen2]
    have hne : i ≠ j := by omega
    have hi1 : i < b1.cells.length := by rw [hlen1]; omega
    have hj1 : j < (b1.setCell i (b1.get j)).cells.length := by
      rw [Board.length_setCell, hlen1]; omega
    have hi2 : i < b2.cells.length := by rw [hlen2]; omega
    have hj3 : j < b3.cells.length := by rw [hlen3]; omega
    have e2i : b2.get i = b.get j := by
      rw [hb2, Board.get_setCell, if_neg (fun h => hne h.1.symm),
        Board.get_setCell, if_pos ⟨rfl, hi1⟩, e1]
    have e2j : b2.get j = b.get i := by
      rw [hb2, Board.get_setCell, if_pos ⟨rfl, hj1⟩, e1]
    have e3i : b3.get i = -b.get j := by
      rw [hb3, Board.get_setCell, if_pos ⟨rfl, hi2⟩, e2i]
    have e3j : b3.get j = b.get i := by
      rw [hb3, Board.get_setCell, if_neg (fun h => hne h.1), e2j]
    by_cases hti : t = i
    · subst hti
      rw [if_pos rfl, hb4, Board.get_setCell, if_neg (fun h => hne h.1.symm), e3i]
    · by_cases htj : t = j
      · subst htj
        rw [if_neg hti, if_pos rfl, hb4, Board.get_setCell, if_pos ⟨rfl, hj3⟩, e3j]
      · rw [if_neg hti, if_neg htj, hb4, Board.get_setCell,
          if_neg (fun h => htj h.1.symm), hb3, Board.get_setCell,
          if_neg (fun h => hti h.1.symm), hb2, Board.get_setCell,
          if_neg (fun h => htj h.1.symm), Board.get_setCell,
          if_neg (fun h => hti h.1.symm), e1]
  · rw [hb4, hb3, hb2, Board.score_setCell, Board.score_setCell,
      Board.score_setCell, Board.score_setCell]

theorem Board.length_placeSucc (b : Board) (p c : ℕ) :
    (b.placeSucc p c).cells.length = b.cells.length := by
  unfold Board.placeSucc
  rw [Board.length_propagate, Board.length_setCell]

theorem Board.length_swapSucc (b : Board) (i j : ℕ) :
    (b.swapSucc i j).cells.length = b.cells.length := by
  simp only [Board.swapSucc, Board.swapCells]
  rw [Board.length_propagate, Board.length_propagate, Board.length_setCell,
    Board.length_setCell, Board.length_setCell, Board.length_setCell,
    Board.cells_propagateDelete, Board.cells_propagateDelete]

theorem Reachable.length {b : Board} (hr : Reachable b) : b.cells.length = 25 := by
  induction hr with
  | base => rfl
  | @step b b' p hr hmem ih =>
    rcases Board.mem_moves.mp hmem with ⟨c, _, _, rfl⟩ | ⟨i, j, _, _, _, _, rfl⟩
    · rw [Board.length_placeSucc, ih]
    · rw [Board.length_swapSucc, ih]

/-! ## Preservation of the no-upright-triple invariant -/

/-- One generated move preserves the invariant that no upright piece has
`NEIGHBORS` or more same-owner orthogonal neighbors: the cells whose counts
grew are exactly the ones `propagate` visits, and any of them that reaches
the threshold while upright is flipped within the same move. -/
theorem upright_inv_step (b b' : Board) (p : ℕ) (hlen : b.cells.length = 25)
    (hInv : ∀ k, k < 25 → 0 < b.get k → b.cnt k < NEIGHBORS)
    (hmem : b' ∈ b.moves p) :
    ∀ k, k < 25 → 0 < b'.get k → b'.cnt k < NEIGHBORS := by
  rcases Board.mem_moves.mp hmem with ⟨c, hc, h0, rfl⟩ | ⟨i, j, hij, hjl, hi0, hj0, rfl⟩
  · -- placement at the empty cell c
    intro k hk hpos
    unfold Board.placeSucc at hpos ⊢
    set v : ℤ := (p : ℤ) + 1 with hv
    set b1 := b.setCell c v with hb1
    have hcl : c < 25 := by omega
    have hg1c : b1.get c = v := by
      rw [hb1, Board.get_setCell, if_pos ⟨rfl, hc⟩]
    have hg1k : ∀ t, t ≠ c → b1.get t = b.get t := fun t ht => by
      rw [hb1, Board.get_setCell, if_neg (fun h => ht h.1.symm)]
    rw [Board.cnt_propagate_eq]
    rw [b1.get_propagate c k] at hpos
    by_cases hcond : (k = c ∨ adj c k) ∧ flipCond b1 c k
    · rw [if_pos hcond] at hpos
      have := hcond.2.2.2
      omega
    · rw [if_neg hcond] at hpos
      by_cases hkc : k = c
      · subst hkc
        by_cases h3 : NEIGHBORS ≤ b1.cnt k
        · exact absurd ⟨Or.inl rfl, rfl, h3, hpos⟩ hcond
        · omega
      · have hk1 : b1.get k = b.get k := hg1k k hkc
        rw [hk1] at hpos
        by_cases hmatch : adj c k ∧ |b.get k| = |b1.get c|
        · by_cases h3 : NEIGHBORS ≤ b1.cnt k
          · exact absurd
              ⟨Or.inr hmatch.1, by rw [hk1, hmatch.2], h3, by rw [hk1]; exact hpos⟩ hcond
          · omega
        · have hP : ∀ q, adj k q → (|b1.get q| = |b.get k| ↔ |b.get q| = |b.get k|) := by
            intro q hq
            by_cases hqc : q = c
            · rw [hqc]
              rw [hqc] at hq
              have hadjck : adj c k := (adj_comm hcl hk).mpr hq
              have hmne : |b.get k| ≠ |b1.get c| := fun he => hmatch ⟨hadjck, he⟩
              constructor
              · intro hh
                exact (hmne hh.symm).elim
              · intro hh
                rw [h0] at hh
                simp only [abs_zero] at hh
                have : (0 : ℤ) < |b.get k| := abs_pos.mpr (by omega)
                omega
            · rw [hg1k q hqc]
          have hcnt_eq : b1.cnt k = b.cnt k := by
            apply Board.cnt_congr_iff k (by rw [hk1])
            · exact fun hg => hP (k - 1) (Or.inl ⟨hg, rfl⟩)
            · exact fun hg => hP (k + 1) (Or.inr (Or.inl ⟨hg, rfl⟩))
            · exact fun hg => hP (k - 5) (Or.inr (Or.inr (Or.inl ⟨hg, rfl⟩)))
            · exact fun hg => hP (k + 5) (Or.inr (Or.inr (Or.inr ⟨hg, rfl⟩)))
          have := hInv k hk hpos
          omega
  · -- swap of upright cells i < j
    intro k hk hpos
    obtain ⟨bmid, heq, hlenmid, hgmid, _⟩ := b.swapSucc_eq i j hij hjl
    rw [heq] at hpos ⊢
    have hil : i < 25 := by omega
    have hjl' : j < 25 := by omega
    rw [Board.cnt_propagate_eq, Board.cnt_propagate_eq]
    set b3 := bmid.propagate i with hb3
    have hchar3 := bmid.get_propagate i k
    rw [b3.get_propagate j k] at hpos
    have habs3 : ∀ t, |b3.get t| = |bmid.get t| := fun t => bmid.abs_get_propagate i t
    have hcnt3 : ∀ t, b3.cnt t = bmid.cnt t := fun t => Board.cnt_propagate_eq bmid i t
    have hmi : bmid.get i = -b.get j := by rw [hgmid i, if_pos rfl]
    have hmj : bmid.get j = -b.get i := by
      rw [hgmid j, if_neg (by omega), if_pos rfl]
    by_cases hki : k = i
    · have hb3k : b3.get k = -b.get j := by
        rw [hki, hb3, Board.get_propagate_of_nonpos i (by rw [hmi]; omega), hmi]
      rw [if_neg (fun h => by have hp := h.2.2.2; rw [hb3k] at hp; omega), hb3k] at hpos
      omega
    · by_cases hkj : k = j
      · have hb3k : b3.get k = -b.get i := by
          rw [hkj, hb3, Board.get_propagate_of_nonpos i (by rw [hmj]; omega), hmj]
        rw [if_neg (fun h => by have hp := h.2.2.2; rw [hb3k] at hp; omega), hb3k] at hpos
        omega
      · have hmk : bmid.get k = b.get k := by
          rw [hgmid k, if_neg hki, if_neg hkj]
        by_cases h1 : (k = i ∨ adj i k) ∧ flipCond bmid i k
        · have hb3k : b3.get k = -bmid.get k := by rw [hb3, hchar3, if_pos h1]
          have hposk := h1.2.2.2
          rw [if_neg (fun h => by have hp := h.2.2.2; rw [hb3k] at hp; omega), hb3k] at hpos
          omega
        · have hb3k : b3.get k = bmid.get k := by rw [hb3, hchar3, if_neg h1]
          by_cases h2 : (k = j ∨ adj j k) ∧ flipCond b3 j k
          · rw [if_pos h2] at hpos
            have := h2.2.2.2
            omega
          · rw [if_neg h2, hb3k, hmk] at hpos
            by_cases hmi' : adj i k ∧ |b.get k| = |bmid.get i|
            · by_cases h3 : NEIGHBORS ≤ bmid.cnt k
              · exact absurd
                  ⟨Or.inr hmi'.1, by rw [hmk, hmi'.2], h3, by rw [hmk]; omega⟩ h1
              · omega
            · by_cases hmj' : adj j k ∧ |b.get k| = |bmid.get j|
              · by_cases h3 : NEIGHBORS ≤ bmid.cnt k
                · exact absurd
                    ⟨Or.inr hmj'.1, by rw [habs3 k, habs3 j, hmk, hmj'.2],
                      by rw [hcnt3 k]; exact h3, by rw [hb3k, hmk]; omega⟩ h2
                · omega
              · have hQ : ∀ q, adj k q → |bmid.get q| = |b.get k| → |b.get q| = |b.get k| := by
                  intro q hq hval
                  by_cases hqi : q = i
                  · rw [hqi] at hq hval
                    have hadjik : adj i k := (adj_comm hil hk).mpr hq
                    exact absurd ⟨hadjik, hval.symm⟩ hmi'
                  · by_cases hqj : q = j
                    · rw [hqj] at hq hval
                      have hadjjk : adj j k := (adj_comm hjl' hk).mpr hq
                      exact absurd ⟨hadjjk, hval.symm⟩ hmj'
                    · rw [hgmid q, if_neg hqi, if_neg hqj] at hval
                      exact hval
                have hmono : bmid.cnt k ≤ b.cnt k := by
                  apply Board.cnt_mono k (by rw [hmk])
                  · exact fun hg => hQ (k - 1) (Or.inl ⟨hg, rfl⟩)
                  · exact fun hg => hQ (k + 1) (Or.inr (Or.inl ⟨hg, rfl⟩))
                  · exact fun hg => hQ (k - 5) (Or.inr (Or.inr (Or.inl ⟨hg, rfl⟩)))
                  · exact fun hg => hQ (k + 5) (Or.inr (Or.inr (Or.inr ⟨hg, rfl⟩)))
                have := hInv k hk (by omega)
                omega

/-! ## Exact count deltas under a single cell write -/

theorem Board.cnt_congr_abs {b b' : Board} (h : ∀ t, |b'.get t| = |b.get t|)
    (k : ℕ) : b'.cnt k = b.cnt k :=
  Board.neighborCount_congr_abs k (k % 5) (k / 5) (h k) (fun _ => h _)
    (fun _ => h _) (fun _ => h _) (fun _ => h _)

theorem Board.cnt_congr_get {b b' : Board} (h : ∀ t, b'.get t = b.get t)
    (k : ℕ) : b'.cnt k = b.cnt k :=
  Board.cnt_congr_abs (fun t => by rw [h t]) k

theorem pdelta_congr_abs {b b' : Board} (h : ∀ t, |b'.get t| = |b.get t|)
    (c k : ℕ) (np : Bool) : pdelta b' c k np = pdelta b c k np := by
  unfold pdelta
  rw [h k, h c, Board.cnt_congr_abs h k]

theorem pdelta_congr_get {b b' : Board} (h : ∀ t, b'.get t = b.get t)
    (c k : ℕ) (np : Bool) : pdelta b' c k np = pdelta b c k np :=
  pdelta_congr_abs (fun t => by rw [h t]) c k np

theorem ddelta_congr_get {b b' : Board} (h : ∀ t, b'.get t = b.get t)
    (c k : ℕ) : ddelta b' c k = ddelta b c k := by
  unfold ddelta
  rw [h k, h c, Board.cnt_congr_get h k]

/-- One indicator summand of `neighbor_count` under a single cell write. -/
theorem ind_set_delta {g : Prop} [Decidable g] {m x : ℤ} (w y : ℤ) (t q : ℕ)
    (hx : x = if t = q then w else y) :
    (if g ∧ |x| = m then (1 : ℤ) else 0)
      = (if g ∧ |y| = m then 1 else 0)
        + (if g ∧ t = q then
            (if |w| = m then (1 : ℤ) else 0) - (if |y| = m then 1 else 0)
          else 0) := by
  by_cases hgg : g
  · by_cases htq : t = q
    · rw [hx, if_pos htq]
      simp only [hgg, htq, true_and]
      split_ifs <;> omega
    · rw [hx, if_neg htq]
      simp only [hgg, true_and, htq, and_false, if_false]
      split_ifs <;> omega
  · simp only [hgg, false_and, if_false]
    omega

set_option maxHeartbeats 3200000 in
/-- Exact effect of one cell write on another cell's neighbor count: the
count changes only when the written position is one of the guarded neighbor
positions, by the difference of the two ownership indicators. -/
theorem Board.cnt_set_delta (b : Board) (t : ℕ) (w : ℤ) (k : ℕ) (hkt : k ≠ t)
    (ht : t < b.cells.length) :
    (b.setCell t w).cnt k = b.cnt k +
      (if adj k t then
        (if |w| = |b.get k| then (1 : ℤ) else 0)
          - (if |b.get t| = |b.get k| then 1 else 0)
       else 0) := by
  have hg : ∀ q, (b.setCell t w).get q = if t = q then w else b.get q := by
    intro q
    rw [Board.get_setCell]
    by_cases hq : t = q
    · rw [if_pos ⟨hq, ht⟩, if_pos hq]
    · rw [if_neg (fun h => hq h.1), if_neg hq]
  have hpiece : (b.setCell t w).get k = b.get k := by
    rw [hg k, if_neg (fun h => hkt h.symm)]
  have hD : (if adj k t then
        (if |w| = |b.get k| then (1 : ℤ) else 0)
          - (if |b.get t| = |b.get k| then 1 else 0)
       else 0)
      = (if (0 < k % 5) ∧ t = k - 1 then
          (if |w| = |b.get k| then (1 : ℤ) else 0)
            - (if |b.get (k - 1)| = |b.get k| then 1 else 0) else 0)
        + (if (k % 5 < 5 - 1) ∧ t = k + 1 then
          (if |w| = |b.get k| then (1 : ℤ) else 0)
            - (if |b.get (k + 1)| = |b.get k| then 1 else 0) else 0)
        + (if (0 < k / 5) ∧ t = k - 5 then
          (if |w| = |b.get k| then (1 : ℤ) else 0)
            - (if |b.get (k - 5)| = |b.get k| then 1 else 0) else 0)
        + (if (k / 5 < 5 - 1) ∧ t = k + 5 then
          (if |w| = |b.get k| then (1 : ℤ) else 0)
            - (if |b.get (k + 5)| = |b.get k| then 1 else 0) else 0) := by
    by_cases hadj : adj k t
    · rw [if_pos hadj]
      rcases hadj with ⟨hgd, ht'⟩ | ⟨hgd, ht'⟩ | ⟨hgd, ht'⟩ | ⟨hgd, ht'⟩ <;> subst ht' <;>
        split_ifs <;> omega
    · rw [if_neg hadj]
      unfold adj at hadj
      split_ifs <;> omega
  rw [hD]
  unfold Board.cnt Board.neighborCount
  simp only [WIDTH, HEIGHT]
  rw [hpiece,
    ind_set_delta w (b.get (k - 1)) t (k - 1) (hg (k - 1)),
    ind_set_delta w (b.get (k + 1)) t (k + 1) (hg (k + 1)),
    ind_set_delta w (b.get (k - 5)) t (k - 5) (hg (k - 5)),
    ind_set_delta w (b.get (k + 5)) t (k + 5) (hg (k + 5))]
  ring

/-! ## Summation of per-cell score attributions -/

theorem adj_self (c : ℕ) : ¬adj c c := by
  unfold adj
  omega

theorem sum_spike (n t : ℕ) {g : Prop} [Decidable g] (A : ℤ) (htg : g → t < n) :
    ∑ k in Finset.range n, (if g ∧ k = t then A else 0) = if g then A else 0 := by
  by_cases hg : g
  · rw [if_pos hg]
    rw [Finset.sum_congr rfl (fun k _ => show (if g ∧ k = t then A else 0) = if k = t then A else 0 by
      by_cases hk : k = t
      · rw [if_pos ⟨hg, hk⟩, if_pos hk]
      · rw [if_neg (fun h => hk h.2), if_neg hk])]
    rw [Finset.sum_ite_eq' (Finset.range n) t (fun _ => A),
      if_pos (Finset.mem_range.mpr (htg hg))]
  · rw [if_neg hg]
    rw [Finset.sum_congr rfl (fun k _ => show (if g ∧ k = t then A else 0) = 0 from
      if_neg (fun h => hg h.1))]
    exact Finset.sum_const_zero

theorem sum_spike_eq (n t : ℕ) (A : ℤ) (ht : t < n) :
    ∑ k in Finset.range n, (if k = t then A else 0) = A := by
  rw [Finset.sum_ite_eq' (Finset.range n) t (fun _ => A),
    if_pos (Finset.mem_range.mpr ht)]

theorem adj_ite_split (c k : ℕ) (P : ℕ → ℤ) :
    (if adj c k then P k else 0)
      = (if (0 < c % 5) ∧ k = c - 1 then P (c - 1) else 0)
        + (if (c % 5 < 4) ∧ k = c + 1 then P (c + 1) else 0)
        + (if (0 < c / 5) ∧ k = c - 5 then P (c - 5) else 0)
        + (if (c / 5 < 4) ∧ k = c + 5 then P (c + 5) else 0) := by
  by_cases hadj : adj c k
  · rw [if_pos hadj]
    rcases hadj with ⟨hg, hk⟩ | ⟨hg, hk⟩ | ⟨hg, hk⟩ | ⟨hg, hk⟩ <;> subst hk <;>
      split_ifs <;> omega
  · rw [if_neg hadj]
    unfold adj at hadj
    split_ifs <;> omega

/-- The sum over the whole board of an attribution supported on the guarded
neighbors of `c` is the corresponding four-term guarded sum. -/
theorem sum_adj (c : ℕ) (hc : c < 25) (P : ℕ → ℤ) :
    ∑ k in Finset.range 25, (if adj c k then P k else 0)
      = (if 0 < c % 5 then P (c - 1) else 0)
        + (if c % 5 < 4 then P (c + 1) else 0)
        + (if 0 < c / 5 then P (c - 5) else 0)
        + (if c / 5 < 4 then P (c + 5) else 0) := by
  rw [Finset.sum_congr rfl (fun k _ => adj_ite_split c k P)]
  rw [Finset.sum_add_distrib, Finset.sum_add_distrib, Finset.sum_add_distrib]
  rw [sum_spike 25 (c - 1) (P (c - 1)) (fun _ => by omega),
    sum_spike 25 (c + 1) (P (c + 1)) (fun h => by omega),
    sum_spike 25 (c - 5) (P (c - 5)) (fun _ => by omega),
    sum_spike 25 (c + 5) (P (c + 5)) (fun h => by omega)]

set_option maxHeartbeats 3200000 in
/-- Per-cell score ledger of a placement move: each cell's change of
`contrib` is exactly the score adjustment that `propagate` books for it. -/
theorem place_pointwise (b : Board) (p c : ℕ) (hlen : b.cells.length = 25)
    (hc : c < 25) (h0 : b.get c = 0)
    (hInv : ∀ k, k < 25 → 0 < b.get k → b.cnt k < NEIGHBORS)
    (k : ℕ) (hk : k < 25) :
    contrib (b.placeSucc p c) k
      = contrib b k
        + ((if k = c then pdelta (b.setCell c ((p : ℤ) + 1)) c c true else 0)
          + (if adj c k then pdelta (b.setCell c ((p : ℤ) + 1)) c k false else 0)) := by
  set v : ℤ := (p : ℤ) + 1 with hv
  have hv1 : 1 ≤ v := by
    have := Int.natCast_nonneg p
    omega
  set b1 := b.setCell c v with hb1
  have hg1 : ∀ t, b1.get t = if c = t then v else b.get t := by
    intro t
    rw [hb1, Board.get_setCell]
    by_cases hq : c = t
    · rw [if_pos ⟨hq, by omega⟩, if_pos hq]
    · rw [if_neg (fun h => hq h.1), if_neg hq]
  have hg1c : b1.get c = v := by rw [hg1 c, if_pos rfl]
  have habs1c : |b1.get c| = v := by rw [hg1c]; exact abs_of_pos (by omega)
  have habsv : |v| = v := abs_of_pos (by omega)
  have hplace : b.placeSucc p c = b1.propagate c := rfl
  rw [hplace]
  unfold contrib
  rw [Board.cnt_propagate_eq, b1.get_propagate c k]
  by_cases hkc : k = c
  · rw [hkc]
    have e1 : (if c = c then pdelta b1 c c true else 0) = pdelta b1 c c true := if_pos rfl
    have e2 : (if adj c c then pdelta b1 c c false else 0) = 0 := if_neg (adj_self c)
    rw [e1, e2]
    have hiff : ((c = c ∨ adj c c) ∧ flipCond b1 c c) ↔ NEIGHBORS ≤ b1.cnt c := by
      unfold flipCond
      constructor
      · exact fun h => h.2.2.1
      · exact fun h => ⟨Or.inl rfl, rfl, h, by rw [hg1c]; omega⟩
    rw [if_congr hiff rfl rfl]
    unfold pdelta wt
    rw [hg1c, habsv, h0]
    simp only [NEIGHBORS, eq_self_iff_true, true_and, and_true, or_true, if_true]
    split_ifs <;> omega
  · have e1 : (if k = c then pdelta b1 c c true else 0) = 0 := if_neg hkc
    rw [e1]
    have hg1k : b1.get k = b.get k := by
      rw [hg1 k, if_neg (fun h => hkc h.symm)]
    by_cases hadj : adj c k
    · have hadj' : adj k c := (adj_comm hc hk).mp hadj
      have hcnt : b1.cnt k = b.cnt k +
          ((if |v| = |b.get k| then (1 : ℤ) else 0)
            - (if |b.get c| = |b.get k| then 1 else 0)) := by
        rw [hb1, Board.cnt_set_delta b c v k hkc (by omega), if_pos hadj']
      rw [h0, abs_zero, habsv] at hcnt
      have e2 : (if adj c k then pdelta b1 c k false else 0) = pdelta b1 c k false :=
        if_pos hadj
      rw [e2]
      have hiff : ((k = c ∨ adj c k) ∧ flipCond b1 c k) ↔
          (|b.get k| = v ∧ NEIGHBORS ≤ b1.cnt k ∧ 0 < b.get k) := by
        unfold flipCond
        rw [hg1k, habs1c]
        constructor
        · exact fun h => h.2
        · exact fun h => ⟨Or.inr hadj, h⟩
      rw [if_congr hiff rfl rfl, hg1k]
      unfold pdelta wt
      rw [hg1k, habs1c]
      have hj' : ¬(0 < b.get k) ∨ b.cnt k < NEIGHBORS := by
        by_cases hx : 0 < b.get k
        · exact Or.inr (hInv k hk hx)
        · exact Or.inl hx
      have habs := abs_choice (b.get k)
      simp only [NEIGHBORS] at hj' ⊢
      simp only [Bool.false_eq_true, or_false]
      rcases habs with ha | ha <;> rcases hj' with hj' | hj' <;>
        split_ifs at hcnt ⊢ <;> omega
    · have hnadj : ¬adj k c := fun h => hadj ((adj_comm hc hk).mpr h)
      have hcnt : b1.cnt k = b.cnt k := by
        rw [hb1, Board.cnt_set_delta b c v k hkc (by omega), if_neg hnadj, add_zero]
      have e2 : (if adj c k then pdelta b1 c k false else 0) = 0 := if_neg hadj
      rw [e2]
      have hnoflip : ¬((k = c ∨ adj c k) ∧ flipCond b1 c k) :=
        fun h => h.1.elim hkc hadj
      rw [if_neg hnoflip, hg1k, hcnt]
      ring

/-! ## Claim theorems -/

/-- C4: flips are monotonic — every generated move (placement or swap)
leaves every flipped cell of the parent board unchanged, with the same
owner; no move returns a flipped cell to upright. -/
theorem flips_monotonic_under_moves (b b' : Board) (p k : ℕ)
    (hmem : b' ∈ b.moves p) (hneg : b.get k < 0) : b'.get k = b.get k := by
  rw [Board.mem_moves] at hmem
  rcases hmem with ⟨c, hc, h0, rfl⟩ | ⟨i, j, hij, hj, hi0, hj0, rfl⟩
  · unfold Board.placeSucc
    have h1 : (b.setCell c ((p : ℤ) + 1)).get k = b.get k := by
      rw [b.get_setCell]
      exact if_neg (fun h => by rw [h.1] at h0; omega)
    rw [Board.get_propagate_of_nonpos c (by rw [h1]; omega), h1]
  · exact b.get_swapSucc_untouched i j k (fun h => by rw [h] at hneg; omega)
      (fun h => by rw [h] at hneg; omega) (by omega)

/-- C4 witness: a concrete flipped cell surviving a concrete placement. -/
theorem flips_monotonic_under_moves_witness : (Bneg.placeSucc 0 1).get 0 = Bneg.get 0 :=
  flips_monotonic_under_moves Bneg (Bneg.placeSucc 0 1) 0 0 (by decide) (by decide)

/-- C9: the search is deterministic — `minimax` is a pure function of the
memo-table state, board, acting player and depth, so two invocations on
equal inputs return the same score, the same chosen successor board, and
the same updated table (the only randomness in the program sits behind
`if false` in `main`, outside the solver). -/
theorem minimax_deterministic (c₁ c₂ : Cache) (b₁ b₂ : Board) (p₁ p₂ : ℕ)
    (d₁ d₂ : ℤ) (hc : c₁ = c₂) (hb : b₁ = b₂) (hp : p₁ = p₂) (hd : d₁ = d₂) :
    Solver.minimax c₁ b₁ p₁ d₁ = Solver.minimax c₂ b₂ p₂ d₂ := by
  rw [hc, hb, hp, hd]

/-- C9 witness: two invocations on the empty board coincide. -/
theorem minimax_deterministic_witness :
    Solver.minimax (fun _ => none) Board.new 0 0 =
      Solver.minimax (fun _ => none) Board.new 0 0 :=
  minimax_deterministic _ _ _ _ _ _ _ _ rfl rfl rfl rfl

/-- C6 (amended): at a depth-limited leaf (`depth ≥ 5`, no memo hit) the
search returns the raw `score` field — the player-0-perspective heuristic —
with no sign adjustment, whichever player is to move: the search is plain
min/max (player 0 maximizes, player 1 minimizes), not negamax. -/
theorem minimax_leaf_returns_raw_score (c : Cache) (b : Board) (p : ℕ) (d : ℤ)
    (hmiss : c b.hash = none) (hd : 5 ≤ d) :
    Solver.minimax c b p d = (((b.score, (b.score : ℚ)), none), c) := by
  unfold Solver.minimax
  cases hf : (5 - d).toNat with
  | zero => simp only [minimaxAux, hmiss]
  | succ n => simp only [minimaxAux, hmiss]; rw [if_pos hd]

/-- C6 witness: the leaf lemma applied at a concrete position with player 1
to move. -/
theorem minimax_leaf_returns_raw_score_witness :
    Solver.minimax (fun _ => none) Bplus 1 5 =
      (((Bplus.score, (Bplus.score : ℚ)), none), fun _ => none) :=
  minimax_leaf_returns_raw_score _ Bplus 1 5 rfl (by norm_num)

/-- C6 counterexample: on a consistent board of score 1 with player 1 to
move, the depth-limited leaf returns the raw score 1, not the
player-1-adjusted value −1 required by the negamax convention. -/
theorem leaf_score_not_sign_adjusted_cex :
    (Solver.minimax (fun _ => none) Bplus 1 5).1.1.1 = Bplus.score ∧
    Bplus.scoreCompute = Bplus.score ∧
    (Solver.minimax (fun _ => none) Bplus 1 5).1.1.1 ≠ -Bplus.score := by decide

/-- C7 (amended): the transposition-table lookup is keyed by the position
hash alone — a stored entry is returned for any later lookup of the same
position regardless of which player is to move (and of the depth). -/
theorem memo_lookup_keyed_by_hash_only (c : Cache) (b : Board) (p : ℕ)
    (d : ℤ) (r : SearchVal) (h : c b.hash = some r) :
    Solver.minimax c b p d = (r, c) := by
  unfold Solver.minimax
  cases hf : (5 - d).toNat with
  | zero => simp only [minimaxAux, h]
  | succ n => simp only [minimaxAux, h]

/-- C7 witness: a seeded entry is returned verbatim on lookup. -/
theorem memo_lookup_keyed_by_hash_only_witness :
    Solver.minimax seededCache Board.new 3 0 = (((7, 0), none), seededCache) :=
  memo_lookup_keyed_by_hash_only _ _ 3 0 _ (by decide)

/-- C7 counterexample: searching the empty board for player 0 memoizes an
entry whose best move places a player-0 piece; an immediately following
search of the same position for player 1 returns that player-0 entry from
the table — the memo key does not include the acting player. -/
theorem memo_cross_player_reuse_cex :
    (Solver.minimax (Solver.minimax (fun _ => none) Board.new 0 4).2 Board.new 1 4).1
        = (Solver.minimax (fun _ => none) Board.new 0 4).1 ∧
      (Solver.minimax (fun _ => none) Board.new 0 4).1.2 =
        some (Board.new.placeSucc 0 0) ∧
      (Board.new.placeSucc 0 0).get 0 = 1 := by with_unfolding_all decide

/-- C8 counterexample: no per-(cell, state) key table makes the board hash
an XOR of keys over exactly the occupied cells: the empty board has no
occupied cells, so that XOR is 0, but its hash is a nonzero constant. -/
theorem hash_not_xor_of_occupied_keys_cex :
    ¬ ∃ key : ℕ → ℤ → ℕ, ∀ b : Board,
        b.cells.length = 25 → (∀ v ∈ b.cells, -2 ≤ v ∧ v ≤ 2) →
        b.hash = xorKeysOverOccupied key b := by
  rintro ⟨key, h⟩
  have h0 := h Board.new (by decide) (by decide)
  have hx : xorKeysOverOccupied key Board.new = 0 := rfl
  rw [hx] at h0
  exact absurd h0 (by decide)

/-- C2 counterexample: on a consistent board holding a 2×2 block of one
player's upright pieces, the engine's evaluation is 0 (only flipped cells
ever score) while the spec's formula gives 1000·0 + 4 = 4 (four cells with
at least two same-owner neighbors). -/
theorem heuristic_ne_spec_formula_cex :
    Bblock.scoreCompute = Bblock.score ∧ Bblock.score = 0 ∧
      specEval Bblock = 4 ∧ Bblock.score ≠ specEval Bblock := by decide

/-- C5: swap moves are generated exactly for the unordered pairs `i < j` of
cells that each hold an occupied, upright piece (`0 < cells`, so flipped and
empty cells are never swap-eligible), and in the successor the two cells
hold each other's previous pieces, flipped: if the owners differed,
ownership is exchanged; if equal, ownership is unchanged; in both cases
both cells become flipped (negative). -/
theorem swap_moves_characterization (b : Board) (hlen : b.cells.length = 25) :
    (∀ b', b' ∈ b.swapMoves ↔
      ∃ i j, i < j ∧ j < 25 ∧ 0 < b.get i ∧ 0 < b.get j ∧ b' = b.swapSucc i j) ∧
    (∀ i j, i < j → j < 25 → 0 < b.get i → 0 < b.get j →
      (b.swapSucc i j).get i = -b.get j ∧ (b.swapSucc i j).get j = -b.get i) := by
  constructor
  · intro b'
    rw [Board.mem_swapMoves, hlen]
  · intro i j hij hj hi0 hj0
    simp only [Board.swapSucc, Board.swapCells]
    set b1 := (b.propagateDelete i).propagateDelete j with hb1
    have e1 : ∀ t, b1.get t = b.get t := fun t =>
      (Board.get_propagateDelete _ j t).trans (Board.get_propagateDelete b i t)
    have hlen1 : b1.cells.length = 25 := by
      rw [hb1, Board.cells_propagateDelete, Board.cells_propagateDelete, hlen]
    have hne : i ≠ j := by omega
    set b2 := (b1.setCell i (b1.get j)).setCell j (b1.get i) with hb2
    have e2i : b2.get i = b.get j := by
      rw [hb2, Board.get_setCell, if_neg (fun h => hne h.1.symm),
        Board.get_setCell, if_pos ⟨rfl, by omega⟩, e1]
    have e2j : b2.get j = b.get i := by
      rw [hb2, Board.get_setCell,
        if_pos ⟨rfl, by rw [Board.length_setCell]; omega⟩, e1]
    set b3 := b2.setCell i (-b2.get i) with hb3
    have hlen2 : b2.cells.length = 25 := by
      rw [hb2, Board.length_setCell, Board.length_setCell, hlen1]
    have e3i : b3.get i = -b.get j := by
      rw [hb3, Board.get_setCell, if_pos ⟨rfl, by omega⟩, e2i]
    have e3j : b3.get j = b.get i := by
      rw [hb3, Board.get_setCell, if_neg (fun h => hne h.1), e2j]
    set b4 := b3.setCell j (-b3.get j) with hb4
    have hlen3 : b3.cells.length = 25 := by
      rw [hb3, Board.length_setCell, hlen2]
    have e4i : b4.get i = -b.get j := by
      rw [hb4, Board.get_setCell, if_neg (fun h => hne h.1.symm), e3i]
    have e4j : b4.get j = -b.get i := by
      rw [hb4, Board.get_setCell, if_pos ⟨rfl, by omega⟩, e3j]
    have e5i : (b4.propagate i).get i = -b.get j := by
      rw [Board.get_propagate_of_nonpos i (by rw [e4i]; omega), e4i]
    have e5j : (b4.propagate i).get j = -b.get i := by
      rw [Board.get_propagate_of_nonpos i (by rw [e4j]; omega), e4j]
    constructor
    · rw [Board.get_propagate_of_nonpos j (by rw [e5i]; omega), e5i]
    · rw [Board.get_propagate_of_nonpos j (by rw [e5j]; omega), e5j]

/-- C5 witness: swapping the two leading upright cells of a concrete board
exchanges and flips them. -/
theorem swap_moves_characterization_witness :
    (Bblock.swapSucc 0 1).get 0 = -Bblock.get 1 ∧
      (Bblock.swapSucc 0 1).get 1 = -Bblock.get 0 :=
  (swap_moves_characterization Bblock (by decide)).2 0 1 (by decide) (by decide)
    (by decide) (by decide)

/-- C8 (amended): the board hash is a positional packing, not a Zobrist
XOR — it equals the sum over all 25 cells (occupied or not) of
`(value + 2) · 8^(24 − i)`, i.e. each cell's value occupies a distinct
3-bit field of the 128-bit result. -/
theorem hash_positional_packing (b : Board) (hlen : b.cells.length = 25)
    (hv : ∀ v ∈ b.cells, -2 ≤ v ∧ v ≤ 2) :
    b.hash = ((List.range 25).map
      (fun i => (b.get i + 2).toNat * 8 ^ (24 - i))).sum := by
  rw [b.hash_eq_packFold (by omega) hv, packFold_eq_sum, hlen]
  apply congrArg
  apply List.map_congr_left
  intro i _
  have h1 : 25 - 1 - i = 24 - i := by omega
  rw [h1]
  rfl

/-- C8 witness: the positional formula evaluated on the empty board. -/
theorem hash_positional_packing_witness :
    Board.new.hash = ((List.range 25).map
      (fun i => (Board.new.get i + 2).toNat * 8 ^ (24 - i))).sum :=
  hash_positional_packing Board.new (by decide) (by decide)

/-- C10: the hash is injective on boards whose 25 cells all hold values in
{-2, -1, 0, 1, 2}: equal hashes imply identical cell arrays, because each
cell occupies a distinct 3-bit field of the result. -/
theorem hash_injective (b₁ b₂ : Board) (h1 : b₁.cells.length = 25)
    (h2 : b₂.cells.length = 25) (hv1 : ∀ v ∈ b₁.cells, -2 ≤ v ∧ v ≤ 2)
    (hv2 : ∀ v ∈ b₂.cells, -2 ≤ v ∧ v ≤ 2) (hh : b₁.hash = b₂.hash) :
    b₁.cells = b₂.cells := by
  rw [b₁.hash_eq_packFold (by omega) hv1, b₂.hash_eq_packFold (by omega) hv2] at hh
  exact packFold_inj b₁.cells b₂.cells (by omega) hv1 hv2 hh

/-- C10 witness: the injectivity lemma applied at concrete boards. -/
theorem hash_injective_witness : Board.new.cells = Board.new.cells :=
  hash_injective Board.new Board.new (by decide) (by decide) (by decide) (by decide) rfl

/-- C2 (amended): the heuristic evaluation equals the number of player 1's
flipped cells having at least 3 same-owner orthogonal neighbors minus the
number of player 2's such flipped cells — one point per cell, no 1000×
weighting, no ≥2 term, and upright cells never score (positive still favors
the first player). -/
theorem heuristic_eq_flipped_cluster_count (b : Board) (hlen : b.cells.length = 25) :
    b.scoreCompute =
      (((Finset.range 25).filter
        (fun k => b.get k = -1 ∧ 3 ≤ specSameOwnerNeighbors b k)).card : ℤ)
      - (((Finset.range 25).filter
        (fun k => b.get k = -2 ∧ 3 ≤ specSameOwnerNeighbors b k)).card : ℤ) := by
  rw [b.scoreCompute_eq_sum, hlen]
  have hpt : ∀ k ∈ Finset.range 25,
      contrib b k =
        (if b.get k = -1 ∧ 3 ≤ specSameOwnerNeighbors b k then (1 : ℤ) else 0)
          - (if b.get k = -2 ∧ 3 ≤ specSameOwnerNeighbors b k then (1 : ℤ) else 0) := by
    intro k hk
    rw [Finset.mem_range] at hk
    rw [contrib_eq_indicators]
    by_cases h1 : b.get k = -1
    · have hocc : b.get k ≠ 0 := by rw [h1]; omega
      have hb := specNbr_eq_cnt b k hk hocc
      have h2 : ¬ b.get k = -2 := by rw [h1]; omega
      have hcond : (NEIGHBORS ≤ b.cnt k) ↔ (3 ≤ specSameOwnerNeighbors b k) := by
        rw [← hb]
        unfold NEIGHBORS
        constructor <;> intro h <;> exact_mod_cast h
      simp only [h1, h2, true_and, false_and, if_false, hcond]
    · by_cases h2 : b.get k = -2
      · have hocc : b.get k ≠ 0 := by rw [h2]; omega
        have hb := specNbr_eq_cnt b k hk hocc
        have hcond : (NEIGHBORS ≤ b.cnt k) ↔ (3 ≤ specSameOwnerNeighbors b k) := by
          rw [← hb]
          unfold NEIGHBORS
          constructor <;> intro h <;> exact_mod_cast h
        simp only [h1, h2, true_and, false_and, if_false, hcond]
      · simp [h1, h2]
  rw [Finset.sum_congr rfl hpt, Finset.sum_sub_distrib]
  congr 1 <;> rw [Finset.sum_boole]

/-- C2 witness: the amended formula evaluated on the plus-shape board: one
flipped player-1 cell with three same-owner neighbors, score 1. -/
theorem heuristic_eq_flipped_cluster_count_witness :
    Bplus.scoreCompute =
      (((Finset.range 25).filter
        (fun k => Bplus.get k = -1 ∧ 3 ≤ specSameOwnerNeighbors Bplus k)).card : ℤ)
      - (((Finset.range 25).filter
        (fun k => Bplus.get k = -2 ∧ 3 ≤ specSameOwnerNeighbors Bplus k)).card : ℤ) :=
  heuristic_eq_flipped_cluster_count Bplus (by decide)

/-- C3: on every board reachable from the empty board by generated moves,
no upright (positive) occupied cell has `NEIGHBORS` (= 3) or more same-owner
orthogonal neighbors — a cell reaching the threshold is flipped within the
same move that created the condition. -/
theorem reachable_no_upright_with_three_neighbors (b : Board) (hr : Reachable b) :
    ∀ k, k < 25 → 0 < b.get k → b.cnt k < NEIGHBORS := by
  induction hr with
  | base =>
    intro k hk h0
    have hz : Board.new.get k = 0 := by
      unfold Board.new Board.get
      simp only [List.getD_eq_getElem?_getD, List.getElem?_replicate]
      split_ifs <;> rfl
    omega
  | @step b b' p hr hmem ih =>
    exact upright_inv_step b b' p hr.length ih hmem

/-- C3 witness: the invariant instantiated on the first placement move. -/
theorem reachable_no_upright_with_three_neighbors_witness :
    (Board.new.placeSucc 0 0).cnt 0 < NEIGHBORS :=
  reachable_no_upright_with_three_neighbors (Board.new.placeSucc 0 0)
    (Reachable.step 0 Reachable.base (by with_unfolding_all decide)) 0
    (by decide) (by decide)

end Thingy
